import Mathlib

/-!
Verification of the constraint-satisfaction core of the crossword generator
(`generate.py`, class `CrosswordCreator`).

The mutable Python state (`self.domains`, the in-place-mutated `assignment`
dict) is embedded by explicit state passing: domains are a total function
from variables to candidate-word lists (Python: dict from variable to set),
assignments are key-ordered association lists (Python: insertion-ordered
dict).  Python set semantics are represented by duplicate-free lists; a
set's iteration order is represented by the list order.  String indexing
`w[i]` is embedded as `List.getD w i ' '` (the claims only exercise
in-range reads; `consistentChecked` below additionally tracks out-of-range
reads explicitly for the safety claim).

The `Variable` / `Crossword` classes live in `crossword.py`, which is not
part of the sources; they are modelled from the spec (sections 2 and 3), as
noted on each such definition.
-/

/-- Modelled from the spec: a word-slot direction, `ACROSS` or `DOWN`
(`Variable.ACROSS` / `Variable.DOWN` in the missing `crossword.py`). -/
inductive Direction where
  | across : Direction
  | down : Direction
deriving DecidableEq

/-- Modelled from the spec: a crossword variable is a value type identified by
row, column, direction and length, with structural equality. -/
structure Variable where
  i : Nat
  j : Nat
  direction : Direction
  length : Nat
deriving DecidableEq

/-- A candidate word: Python strings are embedded as lists of characters. -/
abbrev Word : Type := List Char

/-- Modelled from the spec: the constraint graph consumed by
`CrosswordCreator` — the variable set, the word list used to seed every
domain, and the overlap table, which maps a pair of crossing variables to
the index pair of their one shared cell (absence of an entry meaning that
the pair is unconstrained).  All read-only after construction. -/
structure Crossword where
  vars : List Variable
  words : List Word
  overlapTable : List ((Variable × Variable) × (Nat × Nat))

/-- Modelled from the spec: `crossword.overlaps[x, y]`, the overlap of two
variables — `some (i, j)` when they share the cell at index `i` of `x`'s
word and index `j` of `y`'s word, `none` otherwise. -/
def Crossword.overlaps (cw : Crossword) (x y : Variable) : Option (Nat × Nat) :=
  (cw.overlapTable.find? (fun e => decide (e.1 = (x, y)))).map (fun e => e.2)

/-- Modelled from the spec: `crossword.neighbors(v)` — all variables having a
defined overlap with `v`. -/
def Crossword.neighbors (cw : Crossword) (v : Variable) : List Variable :=
  cw.vars.filter (fun u => decide (u ≠ v) && (cw.overlaps u v).isSome)

/-- The domain store `self.domains`: each variable's current candidate-word
set, embedded as a total function to duplicate-free lists. -/
abbrev Domains : Type := Variable → List Word

/-- The initial domain store built by `CrosswordCreator.__init__`: every
variable's domain is a copy of the full word list. -/
def initialDomains (cw : Crossword) : Domains := fun _ => cw.words

/-- A (partial) assignment: the Python dict from variables to words, embedded
as an association list in key-insertion order. -/
abbrev Assignment : Type := List (Variable × Word)

/-- Dict lookup `assignment[v]` / `v in assignment`, as an `Option`. -/
def lookupA (a : Assignment) (v : Variable) : Option Word :=
  (a.find? (fun p => decide (p.1 = v))).map (fun p => p.2)

/-- Dict update `assignment[v] = w`: replaces the value at an existing key,
otherwise appends the new entry (Python dicts keep insertion order). -/
def insertA (a : Assignment) (v : Variable) (w : Word) : Assignment :=
  if (lookupA a v).isSome then a.map (fun p => if p.1 = v then (v, w) else p)
  else a ++ [(v, w)]

/-- Dict deletion `del assignment[v]`. -/
def eraseA (a : Assignment) (v : Variable) : Assignment :=
  a.filter (fun p => decide (p.1 ≠ v))

/-- Source: `CrosswordCreator.enforce_node_consistency` — for every variable,
remove from its domain every word whose length differs from the variable's
length. -/
def enforceNodeConsistency (cw : Crossword) (ds : Domains) : Domains :=
  cw.vars.foldl
    (fun d v => Function.update d v ((d v).filter (fun w => decide (w.length = v.length))))
    ds

/-- Source: `CrosswordCreator.revise(x, y)` — remove from `domains[x]` every
word with no matching word in `domains[y]` at the overlap indices; return
whether anything was removed, together with the updated store. -/
def revise (cw : Crossword) (ds : Domains) (x y : Variable) : Bool × Domains :=
  match cw.overlaps x y with
  | none => (false, ds)
  | some (i, j) =>
    let toRemove := (ds x).filter
      (fun wx => !((ds y).any (fun wy => decide (wx.getD i ' ' = wy.getD j ' '))))
    let ds' := Function.update ds x
      ((ds x).filter (fun wx => (ds y).any (fun wy => decide (wx.getD i ' ' = wy.getD j ' '))))
    (!toRemove.isEmpty, ds')

/-- The initial work queue of `ac3(arcs=None)`: every ordered pair `(x, y)`
with `y` a neighbor of `x`. -/
def allArcs (cw : Crossword) : List (Variable × Variable) :=
  cw.vars.flatMap (fun x => (cw.neighbors x).map (fun y => (x, y)))

/-- Total size of the domain store over the graph's variables; the measure
that AC-3 propagation strictly shrinks at every revising step. -/
def totalDomSize (cw : Crossword) (ds : Domains) : Nat :=
  (cw.vars.map (fun v => (ds v).length)).sum

/-- Bound on the number of queue-processing steps `ac3` can take from a given
queue and domain store (each revising step removes a word and enqueues at
most `|variables|` arcs; each non-revising step shortens the queue). -/
def ac3Bound (cw : Crossword) (queue : List (Variable × Variable)) (ds : Domains) : Nat :=
  totalDomSize cw ds * (cw.vars.length + 1) + queue.length

/-- Source: the FIFO loop of `CrosswordCreator.ac3`, with an explicit step
budget (`ac3` below supplies a budget exceeding `ac3Bound`, which the
termination lemmas show is never exhausted): pop an arc, revise it, fail if
the revised domain emptied, otherwise re-enqueue the affected arcs. -/
def ac3Loop (cw : Crossword) : Nat → List (Variable × Variable) → Domains → Bool × Domains
  | 0, _, ds => (true, ds)
  | fuel + 1, queue, ds =>
    match queue with
    | [] => (true, ds)
    | (x, y) :: rest =>
      let r := revise cw ds x y
      if r.1 then
        if (r.2 x).length = 0 then (false, r.2)
        else
          ac3Loop cw fuel
            (rest ++ ((cw.neighbors x).filter (fun n => decide (n ≠ y))).map (fun n => (n, x)))
            r.2
      else ac3Loop cw fuel rest ds

/-- Source: `CrosswordCreator.ac3(arcs)` — initialize the queue with all arcs
when `arcs` is `None`, else with the supplied list, and run the loop. -/
def ac3 (cw : Crossword) (ds : Domains) (arcs : Option (List (Variable × Variable))) :
    Bool × Domains :=
  let queue := arcs.getD (allArcs cw)
  ac3Loop cw (ac3Bound cw queue ds + 1) queue ds

/-- Source: `CrosswordCreator.assignment_complete` — every graph variable has
an entry (`not len(set(variables - keys))`). -/
def assignmentComplete (cw : Crossword) (a : Assignment) : Bool :=
  (cw.vars.filter (fun v => (lookupA a v).isNone)).isEmpty

/-- Source: `CrosswordCreator.consistent` — the assigned words are pairwise
distinct (the Python `len(values) != len(set(values))` test, embedded via
`dedup`), every assigned word's length equals its variable's length, and
every pair of assigned neighboring variables agrees at the overlap indices.
The `none` overlap branch returns `true`; it is unreachable for neighbors,
whose overlap is defined by construction. -/
def consistent (cw : Crossword) (a : Assignment) : Bool :=
  (decide ((a.map (fun p => p.2)).dedup.length = (a.map (fun p => p.2)).length))
  && a.all (fun p => decide (p.2.length = p.1.length))
  && a.all (fun p =>
      (cw.neighbors p.1).all (fun j =>
        match lookupA a j with
        | none => true
        | some wj =>
          match cw.overlaps p.1 j with
          | some o => decide (p.2.getD o.1 ' ' = wj.getD o.2 ' ')
          | none => true))

/-- Insertion step of the embedding of Python's `sorted`: place `x` before the
first element `y` with `le x y`. -/
def insertSorted {α : Type} (le : α → α → Bool) (x : α) : List α → List α
  | [] => [x]
  | y :: ys => if le x y then x :: y :: ys else y :: insertSorted le x ys

/-- Embedding of Python's `sorted(l, key=...)` as an insertion sort; only the
ordering of the result matters to the source (and for `order_domain_values`
the sorted list is discarded entirely), so the sorting algorithm itself is
irrelevant. -/
def sortBy {α : Type} (le : α → α → Bool) : List α → List α
  | [] => []
  | x :: xs => insertSorted le x (sortBy le xs)

/-- Source: the inner `_neighbor(temp, v)` of `order_domain_values`: over the
words `i` of `temp`'s current domain, count those equal to `v`, else — when
the overlap of `var` and `temp` is defined (a present tuple is truthy) —
those disagreeing with `v` at the overlap indices. -/
def neighborElimCount (cw : Crossword) (ds : Domains) (a : Assignment)
    (var temp : Variable) (v : Word) : Nat :=
  if (lookupA a temp).isSome then 0
  else
    (ds temp).foldl
      (fun count i =>
        if i = v then count + 1
        else
          match cw.overlaps var temp with
          | some o => if v.getD o.1 ' ' ≠ i.getD o.2 ' ' then count + 1 else count
          | none => count)
      0

/-- Source: the inner `_value(val)` of `order_domain_values`: sum
`_neighbor(i, val)` over the unassigned neighbors of `var`.  The source also
rebinds `domains[var]` to the singleton `{val}` around this computation and
restores it before returning; that rebinding is never read (a variable is
not its own neighbor), so the embedding reads the store `ds` directly. -/
def valueElimCount (cw : Crossword) (ds : Domains) (a : Assignment)
    (unassigned : List Variable) (var : Variable) (val : Word) : Nat :=
  (cw.neighbors var).foldl
    (fun count i =>
      if i ∈ unassigned then count + neighborElimCount cw ds a var i val else count)
    0

/-- Source: `CrosswordCreator.order_domain_values(var, assignment)` — on an
empty domain return `[]`; otherwise save the store, rebind each assigned
variable's domain to the singleton of its assigned word, compute the
least-constraining-value ordering of `domains[var]` (`discardedOrder`,
which the source then discards), restore the saved store, and return a copy
of `domains[var]` from the restored store. -/
def orderDomainValues (cw : Crossword) (ds : Domains) (var : Variable) (a : Assignment) :
    List Word × Domains :=
  if (ds var).isEmpty then ([], ds)
  else
    let tempDomain := ds
    let dsA := a.foldl (fun (d : Domains) (p : Variable × Word) => Function.update d p.1 [p.2]) ds
    let unassigned := cw.vars.filter (fun v => (lookupA a v).isNone)
    let _discardedOrder := sortBy
      (fun v1 v2 => decide (valueElimCount cw dsA a unassigned var v1
        ≤ valueElimCount cw dsA a unassigned var v2))
      (dsA var)
    let restored := tempDomain
    (restored var, restored)

/-- The Minimum-Remaining-Values key order of `select_unassigned_variable`:
Python's tuple order on `(len(domains[v]), -len(neighbors(v)))`. -/
def mrvLe (cw : Crossword) (ds : Domains) (v1 v2 : Variable) : Bool :=
  decide ((ds v1).length < (ds v2).length)
  || (decide ((ds v1).length = (ds v2).length)
      && decide ((cw.neighbors v2).length ≤ (cw.neighbors v1).length))

/-- Source: `CrosswordCreator.select_unassigned_variable` — sort the
unassigned variables by the MRV/degree key and return the first, or `None`
when every variable is assigned. -/
def selectUnassignedVariable (cw : Crossword) (ds : Domains) (a : Assignment) :
    Option Variable :=
  (sortBy (mrvLe cw ds) (cw.vars.filter (fun v => (lookupA a v).isNone))).head?

/-- Source: the `for i in self.order_domain_values(...)` loop of `backtrack`:
tentatively insert `(var, value)`, run the recursive search `f`, propagate a
success, and on failure delete the tentative entry and try the next value.
The second component is the final state of the in-place-mutated assignment
dict. -/
def tryValues (f : Assignment → Option Assignment × Assignment) (var : Variable) :
    List Word → Assignment → Option Assignment × Assignment
  | [], a => (none, a)
  | v :: rest, a =>
    match f (insertA a var v) with
    | (some r, a2) => (some r, a2)
    | (none, a2) => tryValues f var rest (eraseA a2 var)

/-- Source: `CrosswordCreator.backtrack(assignment)` — fail on an inconsistent
assignment, return a complete one, otherwise select an unassigned variable
and try its domain values in the order `order_domain_values` returns.  The
in-place mutation of the Python dict is embedded by returning the final
assignment state next to the result; the recursion is paced by a step
budget (`solve` passes `|variables| + 1`, which bounds the recursion depth
since every recursive call assigns one more variable).  The `none` branch
of the selector is unreachable: an incomplete assignment leaves at least
one unassigned variable. -/
def backtrack (cw : Crossword) : Nat → Domains → Assignment → Option Assignment × Assignment
  | 0, _, a => (none, a)
  | fuel + 1, ds, a =>
    if !(consistent cw a) then (none, a)
    else if assignmentComplete cw a then (some a, a)
    else
      match selectUnassignedVariable cw ds a with
      | none => (none, a)
      | some var =>
        let vd := orderDomainValues cw ds var a
        tryValues (backtrack cw fuel vd.2) var vd.1 a

/-- Source: `CrosswordCreator.solve` — enforce node consistency, run `ac3`
(whose Boolean result the source ignores), and return the result of
`backtrack` on the empty assignment. -/
def solve (cw : Crossword) : Option Assignment :=
  let ds1 := enforceNodeConsistency cw (initialDomains cw)
  let ds2 := (ac3 cw ds1 none).2
  (backtrack cw (cw.vars.length + 1) ds2 []).1

/-- Short-circuiting conjunction over a list with explicit failure tracking:
`none` models a Python exception escaping the loop, `some false` an early
`return False`. -/
def allOptB {α : Type} (f : α → Option Bool) : List α → Option Bool
  | [] => some true
  | x :: xs =>
    match f x with
    | none => none
    | some false => some false
    | some true => allOptB f xs

/-- Source: `CrosswordCreator.consistent` again, but with the word indexing of
the neighbor-agreement check made fallible: an out-of-range read (a Python
`IndexError`) yields `none` instead of a Boolean.  Used to state that
`consistent` never reads a word out of range. -/
def consistentChecked (cw : Crossword) (a : Assignment) : Option Bool :=
  if !(decide ((a.map (fun p => p.2)).dedup.length = (a.map (fun p => p.2)).length)) then
    some false
  else if !(a.all (fun p => decide (p.2.length = p.1.length))) then some false
  else
    allOptB
      (fun p =>
        allOptB
          (fun j =>
            match lookupA a j with
            | none => some true
            | some wj =>
              match cw.overlaps p.1 j with
              | some o =>
                match p.2[o.1]?, wj[o.2]? with
                | some c1, some c2 => some (decide (c1 = c2))
                | _, _ => none
              | none => some true)
          (cw.neighbors p.1))
      a

/-- Graph invariant check (spec section 3): every entry of the overlap table
lies within both variables' lengths. -/
def overlapBoundsCheck (cw : Crossword) : Bool :=
  cw.overlapTable.all
    (fun e => decide (e.2.1 < e.1.1.length) && decide (e.2.2 < e.1.2.length))

/-- Graph invariant check (spec section 3): the overlap table is symmetric —
each recorded overlap is recorded in the other order with the index pair
swapped, and lookups return the recorded pairs. -/
def overlapSymmCheck (cw : Crossword) : Bool :=
  cw.overlapTable.all
    (fun e => decide (cw.overlaps e.1.1 e.1.2 = some e.2)
      && decide (cw.overlaps e.1.2 e.1.1 = some (e.2.2, e.2.1)))

/-- Graph invariant (spec section 3) as a proposition: overlaps are
symmetric, with the index pair swapped. -/
def OverlapSymm (cw : Crossword) : Prop :=
  ∀ x y i j, cw.overlaps x y = some (i, j) → cw.overlaps y x = some (j, i)

/-- Instrumentation of `tryValues`: how many `backtrack` invocations the loop
body performs, with `g` counting the invocations inside one recursive
call.  Mirrors `tryValues` step for step. -/
def tryValuesCalls (f : Assignment → Option Assignment × Assignment)
    (g : Assignment → Nat) (var : Variable) : List Word → Assignment → Nat
  | [], _ => 0
  | v :: rest, a =>
    g (insertA a var v) +
    match f (insertA a var v) with
    | (some _, _) => 0
    | (none, a2) => tryValuesCalls f g var rest (eraseA a2 var)

/-- Instrumentation of `backtrack`: the number of times `backtrack` is entered
(the call itself plus all recursive calls), mirroring `backtrack` branch for
branch. -/
def backtrackCalls (cw : Crossword) : Nat → Domains → Assignment → Nat
  | 0, _, _ => 1
  | fuel + 1, ds, a =>
    if !(consistent cw a) then 1
    else if assignmentComplete cw a then 1
    else
      match selectUnassignedVariable cw ds a with
      | none => 1
      | some var =>
        let vd := orderDomainValues cw ds var a
        1 + tryValuesCalls (backtrack cw fuel vd.2) (backtrackCalls cw fuel vd.2) var vd.1 a

/-- Number of `backtrack` invocations a `solve` call performs: `0` would mean
the backtracking search is never invoked. -/
def solveBacktrackCalls (cw : Crossword) : Nat :=
  let ds1 := enforceNodeConsistency cw (initialDomains cw)
  let ds2 := (ac3 cw ds1 none).2
  backtrackCalls cw (cw.vars.length + 1) ds2 []

/-- Modelled from the spec wording of claim C5 (not from the source; it states
what `order_domain_values` is documented to return): the number of values
candidate `v` would eliminate from unassigned neighbors' domains — value
`u` of unassigned neighbor `n` with overlap indices `(k, j)` is eliminated
exactly when `v[k] != u[j]`, summed across all unassigned neighbors. -/
def specElimCount (cw : Crossword) (ds : Domains) (a : Assignment)
    (var : Variable) (v : Word) : Nat :=
  ((cw.neighbors var).filter (fun n => (lookupA a n).isNone)).foldl
    (fun c n =>
      match cw.overlaps var n with
      | some k => c + ((ds n).filter (fun u => decide (v.getD k.1 ' ' ≠ u.getD k.2 ' '))).length
      | none => c)
    0

section BasicLemmas

theorem lookupA_eq_none_iff {a : Assignment} {v : Variable} :
    lookupA a v = none ↔ ∀ p ∈ a, p.1 ≠ v := by
  simp [lookupA, List.find?_eq_none]

theorem mem_of_lookupA {a : Assignment} {v : Variable} {w : Word}
    (h : lookupA a v = some w) : (v, w) ∈ a := by
  unfold lookupA at h
  cases hf : a.find? (fun p => decide (p.1 = v)) with
  | none => simp [hf] at h
  | some p =>
    have hp := List.find?_some hf
    have hm := List.mem_of_find?_eq_some hf
    simp [hf] at h
    simp at hp
    rcases p with ⟨p1, p2⟩
    simp at hp h
    subst hp; subst h; exact hm

theorem insertA_of_not_mem {a : Assignment} {v : Variable} (w : Word)
    (h : lookupA a v = none) : insertA a v w = a ++ [(v, w)] := by
  simp [insertA, h]

theorem eraseA_of_not_mem {a : Assignment} {v : Variable}
    (h : lookupA a v = none) : eraseA a v = a := by
  rw [lookupA_eq_none_iff] at h
  exact List.filter_eq_self.mpr (fun p hp => by simpa using h p hp)

theorem eraseA_insertA {a : Assignment} {v : Variable} (w : Word)
    (h : lookupA a v = none) : eraseA (insertA a v w) v = a := by
  rw [insertA_of_not_mem w h]
  unfold eraseA
  rw [List.filter_append]
  have h' := lookupA_eq_none_iff.mp h
  rw [List.filter_eq_self.mpr (fun p hp => by simpa using h' p hp)]
  simp [List.filter]

theorem lookupA_append_single_self (a : Assignment) (v : Variable) (w : Word)
    (h : lookupA a v = none) : lookupA (a ++ [(v, w)]) v = some w := by
  unfold lookupA at h ⊢
  rw [List.find?_append]
  cases hf : a.find? (fun p => decide (p.1 = v)) with
  | none => simp [List.find?]
  | some p => simp [hf] at h

theorem lookupA_append_single_ne (a : Assignment) (v u : Variable) (w : Word)
    (h : u ≠ v) : lookupA (a ++ [(v, w)]) u = lookupA a u := by
  unfold lookupA
  rw [List.find?_append]
  cases hf : a.find? (fun p => decide (p.1 = u)) with
  | none => simp [List.find?, Ne.symm h]
  | some p => simp

theorem lookupA_insertA_self {a : Assignment} {v : Variable} (w : Word)
    (h : lookupA a v = none) : lookupA (insertA a v w) v = some w := by
  rw [insertA_of_not_mem w h]
  exact lookupA_append_single_self a v w h

theorem lookupA_insertA_ne {a : Assignment} {v u : Variable} (w : Word)
    (h : lookupA a v = none) (hne : u ≠ v) :
    lookupA (insertA a v w) u = lookupA a u := by
  rw [insertA_of_not_mem w h]
  exact lookupA_append_single_ne a v u w hne

theorem mem_insertSorted {α : Type} (le : α → α → Bool) (x y : α) :
    ∀ l : List α, y ∈ insertSorted le x l ↔ y = x ∨ y ∈ l := by
  intro l
  induction l with
  | nil => simp [insertSorted]
  | cons z zs ih =>
    by_cases h : le x z = true
    · simp [insertSorted, h]
    · simp only [insertSorted, h]
      simp [ih]
      tauto

theorem mem_sortBy {α : Type} (le : α → α → Bool) (y : α) :
    ∀ l : List α, y ∈ sortBy le l ↔ y ∈ l := by
  intro l
  induction l with
  | nil => simp [sortBy]
  | cons x xs ih => simp [sortBy, mem_insertSorted, ih]

theorem pairwise_insertSorted {α : Type} (le : α → α → Bool)
    (htot : ∀ a b, le a b = true ∨ le b a = true)
    (htr : ∀ a b c, le a b = true → le b c = true → le a c = true) (x : α) :
    ∀ l : List α, l.Pairwise (fun a b => le a b = true) →
      (insertSorted le x l).Pairwise (fun a b => le a b = true) := by
  intro l
  induction l with
  | nil => simp [insertSorted]
  | cons y ys ih =>
    intro hp
    rcases List.pairwise_cons.mp hp with ⟨hy, hys⟩
    by_cases h : le x y = true
    · simp only [insertSorted, h, if_true]
      refine List.pairwise_cons.mpr ⟨?_, hp⟩
      intro z hz
      rcases List.mem_cons.mp hz with hz | hz
      · subst hz; exact h
      · exact htr x y z h (hy z hz)
    · simp only [insertSorted, h, if_false]
      refine List.pairwise_cons.mpr ⟨?_, ih hys⟩
      intro z hz
      rcases (mem_insertSorted le x z ys).mp hz with hz | hz
      · rcases htot x y with hxy | hyx
        · exact absurd hxy h
        · rw [hz]; exact hyx
      · exact hy z hz

theorem pairwise_sortBy {α : Type} (le : α → α → Bool)
    (htot : ∀ a b, le a b = true ∨ le b a = true)
    (htr : ∀ a b c, le a b = true → le b c = true → le a c = true) :
    ∀ l : List α, (sortBy le l).Pairwise (fun a b => le a b = true) := by
  intro l
  induction l with
  | nil => simp [sortBy]
  | cons x xs ih => exact pairwise_insertSorted le htot htr x _ ih

theorem sortBy_head_min {α : Type} (le : α → α → Bool)
    (htot : ∀ a b, le a b = true ∨ le b a = true)
    (htr : ∀ a b c, le a b = true → le b c = true → le a c = true)
    {l : List α} {h : α} (hh : (sortBy le l).head? = some h) :
    ∀ y ∈ l, le h y = true := by
  intro y hy
  have hys : y ∈ sortBy le l := (mem_sortBy le y l).mpr hy
  cases hsort : sortBy le l with
  | nil => rw [hsort] at hys; simp at hys
  | cons a t =>
    rw [hsort] at hh hys
    simp only [List.head?] at hh
    have hah : a = h := by exact Option.some.inj hh
    subst hah
    have hp := pairwise_sortBy le htot htr l
    rw [hsort] at hp
    rcases List.pairwise_cons.mp hp with ⟨ha, _⟩
    rcases List.mem_cons.mp hys with hy' | hy'
    · subst hy'
      rcases htot y y with h' | h' <;> exact h'
    · exact ha y hy'

theorem mrvLe_total (cw : Crossword) (ds : Domains) :
    ∀ v1 v2, mrvLe cw ds v1 v2 = true ∨ mrvLe cw ds v2 v1 = true := by
  intro v1 v2
  unfold mrvLe
  rcases Nat.lt_trichotomy ((ds v1).length) ((ds v2).length) with h | h | h
  · left; simp [h]
  · rcases Nat.le_total ((cw.neighbors v2).length) ((cw.neighbors v1).length) with h' | h'
    · left; simp [h, h']
    · right; simp [h.symm, h']
  · right; simp [h]

theorem mrvLe_trans (cw : Crossword) (ds : Domains) :
    ∀ v1 v2 v3, mrvLe cw ds v1 v2 = true → mrvLe cw ds v2 v3 = true →
      mrvLe cw ds v1 v3 = true := by
  intro v1 v2 v3 h12 h23
  unfold mrvLe at *
  simp only [Bool.or_eq_true, Bool.and_eq_true, decide_eq_true_eq] at *
  rcases h12 with h12 | ⟨h12e, h12d⟩ <;> rcases h23 with h23 | ⟨h23e, h23d⟩
  · exact Or.inl (Nat.lt_trans h12 h23)
  · exact Or.inl (h23e ▸ h12)
  · exact Or.inl (h12e ▸ h23)
  · exact Or.inr ⟨h12e.trans h23e, Nat.le_trans h23d h12d⟩

end BasicLemmas

section SelectorLemmas

theorem selectUnassignedVariable_mem {cw : Crossword} {ds : Domains} {a : Assignment}
    {v : Variable} (h : selectUnassignedVariable cw ds a = some v) :
    v ∈ cw.vars ∧ lookupA a v = none := by
  unfold selectUnassignedVariable at h
  cases hs : sortBy (mrvLe cw ds) (cw.vars.filter (fun u => (lookupA a u).isNone)) with
  | nil => rw [hs] at h; simp at h
  | cons b t =>
    rw [hs] at h
    simp only [List.head?] at h
    have hb : b = v := Option.some.inj h
    subst hb
    have hmem : b ∈ cw.vars.filter (fun u => (lookupA a u).isNone) := by
      rw [← mem_sortBy (mrvLe cw ds), hs]; exact List.mem_cons_self b t
    rcases List.mem_filter.mp hmem with ⟨h1, h2⟩
    exact ⟨h1, by simpa using h2⟩

theorem selectUnassignedVariable_min {cw : Crossword} {ds : Domains} {a : Assignment}
    {v : Variable} (h : selectUnassignedVariable cw ds a = some v) :
    ∀ u ∈ cw.vars, lookupA a u = none → mrvLe cw ds v u = true := by
  intro u hu hun
  unfold selectUnassignedVariable at h
  exact sortBy_head_min (mrvLe cw ds) (mrvLe_total cw ds) (mrvLe_trans cw ds) h u
    (List.mem_filter.mpr ⟨hu, by simp [hun]⟩)

theorem insertSorted_ne_nil {α : Type} (le : α → α → Bool) (x : α) (l : List α) :
    insertSorted le x l ≠ [] := by
  cases l with
  | nil => simp [insertSorted]
  | cons y ys =>
    unfold insertSorted
    by_cases h : le x y = true <;> simp [h]

theorem selectUnassignedVariable_isSome {cw : Crossword} {ds : Domains} {a : Assignment}
    (h : assignmentComplete cw a = false) :
    ∃ v, selectUnassignedVariable cw ds a = some v := by
  unfold assignmentComplete at h
  unfold selectUnassignedVariable
  cases hf : cw.vars.filter (fun u => (lookupA a u).isNone) with
  | nil => rw [hf] at h; simp at h
  | cons b t =>
    cases hs : sortBy (mrvLe cw ds) (b :: t) with
    | nil => exact absurd hs (by unfold sortBy; exact insertSorted_ne_nil _ _ _)
    | cons c u => exact ⟨c, by simp [List.head?]⟩

end SelectorLemmas

section OrderDomainValuesLemmas

theorem orderDomainValues_snd (cw : Crossword) (ds : Domains) (var : Variable)
    (a : Assignment) : (orderDomainValues cw ds var a).2 = ds := by
  unfold orderDomainValues
  split <;> rfl

theorem orderDomainValues_fst (cw : Crossword) (ds : Domains) (var : Variable)
    (a : Assignment) :
    (orderDomainValues cw ds var a).1 = if (ds var).isEmpty then [] else ds var := by
  unfold orderDomainValues
  split <;> simp_all

theorem orderDomainValues_fst_mem (cw : Crossword) (ds : Domains) (var : Variable)
    (a : Assignment) (w : Word) :
    w ∈ (orderDomainValues cw ds var a).1 ↔ w ∈ ds var := by
  rw [orderDomainValues_fst]
  by_cases h : (ds var).isEmpty
  · have : ds var = [] := by simpa [List.isEmpty_iff] using h
    simp [h, this]
  · simp [h]

end OrderDomainValuesLemmas

section BacktrackLemmas

theorem tryValues_sound {f : Assignment → Option Assignment × Assignment}
    {P : Assignment → Prop} (hf : ∀ a' r s, f a' = (some r, s) → P r) (var : Variable) :
    ∀ (vals : List Word) (a : Assignment) (r : Assignment) (s : Assignment),
      tryValues f var vals a = (some r, s) → P r := by
  intro vals
  induction vals with
  | nil => intro a r s h; simp [tryValues] at h
  | cons v rest ih =>
    intro a r s h
    unfold tryValues at h
    cases hfa : f (insertA a var v) with
    | mk o a2 =>
      cases o with
      | some r' =>
        rw [hfa] at h
        simp at h
        rcases h with ⟨h1, _⟩
        exact h1 ▸ hf _ _ _ hfa
      | none =>
        rw [hfa] at h
        exact ih _ r s h

theorem backtrack_sound (cw : Crossword) :
    ∀ (fuel : Nat) (ds : Domains) (a r s : Assignment),
      backtrack cw fuel ds a = (some r, s) →
      consistent cw r = true ∧ assignmentComplete cw r = true := by
  intro fuel
  induction fuel with
  | zero => intro ds a r s h; simp [backtrack] at h
  | succ n ih =>
    intro ds a r s h
    unfold backtrack at h
    by_cases hc : consistent cw a
    · by_cases hcomp : assignmentComplete cw a
      · simp [hc, hcomp] at h
        exact ⟨h.1 ▸ hc, h.1 ▸ hcomp⟩
      · simp [hc, hcomp] at h
        cases hsel : selectUnassignedVariable cw ds a with
        | none => rw [hsel] at h; simp at h
        | some var =>
          rw [hsel] at h
          exact tryValues_sound (fun a' r' s' h' => ih _ a' r' s' h') var _ a r s h
    · simp [hc] at h

theorem tryValues_restore {f : Assignment → Option Assignment × Assignment}
    (hf : ∀ a', (f a').1 = none → (f a').2 = a') {var : Variable} :
    ∀ (vals : List Word) (a : Assignment), lookupA a var = none →
      (tryValues f var vals a).1 = none → (tryValues f var vals a).2 = a := by
  intro vals
  induction vals with
  | nil => intro a _ _; simp [tryValues]
  | cons v rest ih =>
    intro a hvar h
    unfold tryValues at h ⊢
    cases hfa : f (insertA a var v) with
    | mk o a2 =>
      cases o with
      | some r' => rw [hfa] at h; simp at h
      | none =>
        rw [hfa] at h
        have h' : (tryValues f var rest (eraseA a2 var)).1 = none := h
        have ha2 : a2 = insertA a var v := by
          have := hf (insertA a var v) (by rw [hfa])
          rw [hfa] at this; exact this
        have herase : eraseA a2 var = a := by
          rw [ha2]; exact eraseA_insertA v hvar
        show (tryValues f var rest (eraseA a2 var)).2 = a
        rw [herase] at h' ⊢
        exact ih a hvar h'

theorem backtrack_restore (cw : Crossword) :
    ∀ (fuel : Nat) (ds : Domains) (a : Assignment),
      (backtrack cw fuel ds a).1 = none → (backtrack cw fuel ds a).2 = a := by
  intro fuel
  induction fuel with
  | zero => intro ds a _; simp [backtrack]
  | succ n ih =>
    intro ds a h
    unfold backtrack at h ⊢
    by_cases hc : consistent cw a
    · by_cases hcomp : assignmentComplete cw a
      · simp [hc, hcomp] at h
      · simp only [hc, hcomp, Bool.not_true, Bool.false_eq_true, if_false, if_true,
          Bool.not_false] at h ⊢
        cases hsel : selectUnassignedVariable cw ds a with
        | none => rfl
        | some var =>
          rw [hsel] at h
          have hvar := (selectUnassignedVariable_mem hsel).2
          exact tryValues_restore (fun a' => ih _ a') _ a hvar h
    · simp [hc]

end BacktrackLemmas

section PropagationLemmas

theorem enc_foldl_subset (l : List Variable) :
    ∀ (d : Domains) (v : Variable) (w : Word),
      w ∈ (l.foldl
        (fun d v => Function.update d v ((d v).filter (fun w => decide (w.length = v.length))))
        d) v →
      w ∈ d v := by
  induction l with
  | nil => intro d v w h; exact h
  | cons u us ih =>
    intro d v w h
    have h2 := ih _ v w h
    simp only at h2
    by_cases hv : v = u
    · subst hv
      rw [Function.update_same] at h2
      exact (List.mem_filter.mp h2).1
    · rwa [Function.update_noteq hv] at h2

theorem enc_foldl_mem (l : List Variable) :
    ∀ (d : Domains) (v : Variable) (w : Word), w ∈ d v → w.length = v.length →
      w ∈ (l.foldl
        (fun d v => Function.update d v ((d v).filter (fun w => decide (w.length = v.length))))
        d) v := by
  induction l with
  | nil => intro d v w h _; exact h
  | cons u us ih =>
    intro d v w h hlen
    apply ih _ v w _ hlen
    show w ∈ Function.update d u ((d u).filter (fun w => decide (w.length = u.length))) v
    by_cases hv : v = u
    · subst hv
      rw [Function.update_same]
      exact List.mem_filter.mpr ⟨h, by simpa using hlen⟩
    · rwa [Function.update_noteq hv]

theorem enforceNodeConsistency_subset (cw : Crossword) (ds : Domains) (v : Variable)
    (w : Word) (h : w ∈ enforceNodeConsistency cw ds v) : w ∈ ds v :=
  enc_foldl_subset cw.vars ds v w h

theorem enforceNodeConsistency_mem (cw : Crossword) (ds : Domains) (v : Variable)
    (w : Word) (h : w ∈ ds v) (hlen : w.length = v.length) :
    w ∈ enforceNodeConsistency cw ds v :=
  enc_foldl_mem cw.vars ds v w h hlen

theorem revise_subset (cw : Crossword) (ds : Domains) (x y : Variable) (v : Variable)
    (w : Word) (h : w ∈ (revise cw ds x y).2 v) : w ∈ ds v := by
  unfold revise at h
  cases ho : cw.overlaps x y with
  | none => rw [ho] at h; exact h
  | some o =>
    rcases o with ⟨i, j⟩
    rw [ho] at h
    simp only at h
    by_cases hv : v = x
    · subst hv
      rw [Function.update_same] at h
      exact (List.mem_filter.mp h).1
    · rwa [Function.update_noteq hv] at h

theorem revise_snd_ne (cw : Crossword) (ds : Domains) (x y v : Variable) (h : v ≠ x) :
    (revise cw ds x y).2 v = ds v := by
  unfold revise
  cases ho : cw.overlaps x y with
  | none => rfl
  | some o =>
    rcases o with ⟨i, j⟩
    simp only
    rw [Function.update_noteq h]

theorem revise_mem_of_support (cw : Crossword) (ds : Domains) (x y : Variable)
    {i j : Nat} (ho : cw.overlaps x y = some (i, j)) {w : Word} (hw : w ∈ ds x)
    (hsup : ∃ wy ∈ ds y, w.getD i ' ' = wy.getD j ' ') :
    w ∈ (revise cw ds x y).2 x := by
  unfold revise
  rw [ho]
  simp only
  rw [Function.update_same]
  refine List.mem_filter.mpr ⟨hw, ?_⟩
  rcases hsup with ⟨wy, hwy, hagree⟩
  exact List.any_eq_true.mpr ⟨wy, hwy, by simpa using hagree⟩

theorem revise_mem_x_support (cw : Crossword) (ds : Domains) (x y : Variable)
    {i j : Nat} (ho : cw.overlaps x y = some (i, j)) {w : Word}
    (h : w ∈ (revise cw ds x y).2 x) : ∃ wy ∈ ds y, w.getD i ' ' = wy.getD j ' ' := by
  unfold revise at h
  rw [ho] at h
  simp only at h
  rw [Function.update_same] at h
  have h2 := (List.mem_filter.mp h).2
  rcases List.any_eq_true.mp h2 with ⟨wy, hwy, hagree⟩
  exact ⟨wy, hwy, by simpa using hagree⟩

theorem revise_false_eq (cw : Crossword) (ds : Domains) (x y : Variable)
    (h : (revise cw ds x y).1 = false) : (revise cw ds x y).2 = ds := by
  unfold revise at h ⊢
  cases ho : cw.overlaps x y with
  | none => rfl
  | some o =>
    rcases o with ⟨i, j⟩
    rw [ho] at h
    simp only at h
    have hemp : (ds x).filter
        (fun wx => !((ds y).any (fun wy => decide (wx.getD i ' ' = wy.getD j ' ')))) = [] := by
      rw [← List.isEmpty_iff]
      cases hE : ((ds x).filter
          (fun wx => !((ds y).any (fun wy => decide (wx.getD i ' ' = wy.getD j ' '))))).isEmpty
      · rw [hE] at h; simp at h
      · rfl
    have hall : ∀ w ∈ ds x,
        ((ds y).any (fun wy => decide (w.getD i ' ' = wy.getD j ' '))) = true := by
      intro w hw
      cases hA : (ds y).any (fun wy => decide (w.getD i ' ' = wy.getD j ' '))
      · exfalso
        have hmem : w ∈ (ds x).filter
            (fun wx => !((ds y).any (fun wy => decide (wx.getD i ' ' = wy.getD j ' ')))) :=
          List.mem_filter.mpr ⟨hw, by rw [hA]; rfl⟩
        rw [hemp] at hmem
        exact (List.not_mem_nil w) hmem
      · rfl
    simp only
    rw [List.filter_eq_self.mpr hall]
    exact Function.update_eq_self x ds

theorem revise_true_lt (cw : Crossword) (ds : Domains) (x y : Variable)
    (h : (revise cw ds x y).1 = true) : ((revise cw ds x y).2 x).length < (ds x).length := by
  unfold revise at h ⊢
  cases ho : cw.overlaps x y with
  | none => rw [ho] at h; simp at h
  | some o =>
    rcases o with ⟨i, j⟩
    rw [ho] at h
    simp only at h
    have hne : (ds x).filter
        (fun wx => !((ds y).any (fun wy => decide (wx.getD i ' ' = wy.getD j ' ')))) ≠ [] := by
      intro hnil
      rw [hnil] at h
      simp at h
    rcases List.exists_mem_of_ne_nil _ hne with ⟨w, hw⟩
    have hmem := List.mem_filter.mp hw
    simp only
    rw [Function.update_same]
    refine List.length_filter_lt_length_iff_exists.mpr ⟨w, hmem.1, ?_⟩
    have h2 := hmem.2
    simp only [Bool.not_eq_true'] at h2
    show ¬((ds y).any (fun wy => decide (List.getD w i ' ' = List.getD wy j ' ')) = true)
    rw [h2]
    simp

end PropagationLemmas

section Ac3Lemmas

theorem neighbors_mem {cw : Crossword} {u v : Variable} (h : u ∈ cw.neighbors v) :
    u ∈ cw.vars ∧ u ≠ v ∧ (cw.overlaps u v).isSome = true := by
  rcases List.mem_filter.mp h with ⟨h1, h2⟩
  simp only [Bool.and_eq_true, decide_eq_true_eq] at h2
  exact ⟨h1, h2.1, h2.2⟩

theorem mem_neighbors {cw : Crossword} {u v : Variable} (h1 : u ∈ cw.vars)
    (h2 : u ≠ v) (h3 : (cw.overlaps u v).isSome = true) : u ∈ cw.neighbors v :=
  List.mem_filter.mpr ⟨h1, by simp [h2, h3]⟩

theorem ac3Loop_subset (cw : Crossword) :
    ∀ (fuel : Nat) (queue : List (Variable × Variable)) (ds : Domains) (v : Variable)
      (w : Word), w ∈ (ac3Loop cw fuel queue ds).2 v → w ∈ ds v := by
  intro fuel
  induction fuel with
  | zero => intro queue ds v w h; exact h
  | succ n ih =>
    intro queue ds v w h
    unfold ac3Loop at h
    cases queue with
    | nil => exact h
    | cons p rest =>
      rcases p with ⟨x, y⟩
      simp only at h
      by_cases hrev : (revise cw ds x y).1
      · rw [if_pos hrev] at h
        by_cases hlen : ((revise cw ds x y).2 x).length = 0
        · rw [if_pos hlen] at h
          exact revise_subset cw ds x y v w h
        · rw [if_neg hlen] at h
          exact revise_subset cw ds x y v w (ih _ _ v w h)
      · rw [if_neg hrev] at h
        exact ih _ _ v w h

theorem ac3Loop_false_empty (cw : Crossword) :
    ∀ (fuel : Nat) (queue : List (Variable × Variable)) (ds : Domains),
      (∀ p ∈ queue, p.1 ∈ cw.vars) →
      ∀ ds', ac3Loop cw fuel queue ds = (false, ds') → ∃ x ∈ cw.vars, ds' x = [] := by
  intro fuel
  induction fuel with
  | zero => intro queue ds _ ds' h; simp [ac3Loop] at h
  | succ n ih =>
    intro queue ds hq ds' h
    unfold ac3Loop at h
    cases queue with
    | nil => simp at h
    | cons p rest =>
      rcases p with ⟨x, y⟩
      simp only at h
      by_cases hrev : (revise cw ds x y).1
      · rw [if_pos hrev] at h
        by_cases hlen : ((revise cw ds x y).2 x).length = 0
        · rw [if_pos hlen] at h
          simp at h
          refine ⟨x, hq (x, y) (List.mem_cons_self _ _), ?_⟩
          rw [← h]
          exact List.length_eq_zero.mp hlen
        · rw [if_neg hlen] at h
          refine ih _ _ ?_ ds' h
          intro p hp
          rcases List.mem_append.mp hp with hp | hp
          · exact hq p (List.mem_cons_of_mem _ hp)
          · rcases List.mem_map.mp hp with ⟨nb, hnb, hpe⟩
            have := neighbors_mem (List.mem_filter.mp hnb).1
            rw [← hpe]
            exact this.1
      · rw [if_neg hrev] at h
        exact ih _ _ (fun p hp => hq p (List.mem_cons_of_mem _ hp)) ds' h

theorem allArcs_fst_mem {cw : Crossword} {p : Variable × Variable} (h : p ∈ allArcs cw) :
    p.1 ∈ cw.vars := by
  rcases List.mem_flatMap.mp h with ⟨x, hx, hp⟩
  rcases List.mem_map.mp hp with ⟨y, _, hpe⟩
  rw [← hpe]
  exact hx

theorem mrvLe_length_le {cw : Crossword} {ds : Domains} {v u : Variable}
    (h : mrvLe cw ds v u = true) : (ds v).length ≤ (ds u).length := by
  unfold mrvLe at h
  simp only [Bool.or_eq_true, Bool.and_eq_true, decide_eq_true_eq] at h
  rcases h with h | ⟨h, _⟩
  · exact Nat.le_of_lt h
  · exact Nat.le_of_eq h

theorem consistent_nil (cw : Crossword) : consistent cw [] = true := rfl

theorem assignmentComplete_nil_false {cw : Crossword} {x : Variable} (hx : x ∈ cw.vars) :
    assignmentComplete cw [] = false := by
  unfold assignmentComplete
  have : cw.vars.filter (fun v => (lookupA [] v).isNone) = cw.vars :=
    List.filter_eq_self.mpr (fun v _ => by simp [lookupA, List.find?])
  rw [this]
  cases hcv : cw.vars with
  | nil => rw [hcv] at hx; simp at hx
  | cons b t => rfl

theorem backtrack_empty_domain (cw : Crossword) (ds : Domains) (x : Variable)
    (hx : x ∈ cw.vars) (hempty : ds x = []) :
    ∀ fuel, (backtrack cw fuel ds []).1 = none := by
  intro fuel
  cases fuel with
  | zero => rfl
  | succ n =>
    unfold backtrack
    rw [consistent_nil, assignmentComplete_nil_false hx]
    simp only [Bool.not_true, Bool.false_eq_true, if_false, if_true]
    rcases @selectUnassignedVariable_isSome cw ds [] (assignmentComplete_nil_false hx)
      with ⟨var, hsel⟩
    rw [hsel]
    have hxun : lookupA [] x = none := by simp [lookupA, List.find?]
    have hle := selectUnassignedVariable_min hsel x hx hxun
    have hlen : (ds var).length ≤ (ds x).length := mrvLe_length_le hle
    rw [hempty] at hlen
    simp at hlen
    have hvare : (ds var).isEmpty = true := by
      rw [List.isEmpty_iff]
      exact hlen
    have hfst : (orderDomainValues cw ds var []).1 = [] := by
      rw [orderDomainValues_fst, hvare]
      rfl
    simp only
    rw [hfst]
    rfl

theorem solve_none_of_ac3_false (cw : Crossword)
    (h : (ac3 cw (enforceNodeConsistency cw (initialDomains cw)) none).1 = false) :
    solve cw = none := by
  unfold solve
  have hpair : ac3 cw (enforceNodeConsistency cw (initialDomains cw)) none =
      (false, (ac3 cw (enforceNodeConsistency cw (initialDomains cw)) none).2) := by
    rw [← h]
  have hfalse : ac3Loop cw
      (ac3Bound cw (allArcs cw) (enforceNodeConsistency cw (initialDomains cw)) + 1)
      (allArcs cw) (enforceNodeConsistency cw (initialDomains cw)) =
      (false, (ac3 cw (enforceNodeConsistency cw (initialDomains cw)) none).2) := hpair
  rcases ac3Loop_false_empty cw _ (allArcs cw) _ (fun p hp => allArcs_fst_mem hp) _ hfalse
    with ⟨x, hxv, hxe⟩
  simp only
  exact backtrack_empty_domain cw _ x hxv hxe _

end Ac3Lemmas

section ConcreteInstances

/-- A length-2 across slot starting at the origin, for concrete instances. -/
def vAcross : Variable := ⟨0, 0, Direction.across, 2⟩

/-- A length-2 down slot starting at the origin, for concrete instances. -/
def vDown : Variable := ⟨0, 0, Direction.down, 2⟩

/-- Scenario D of the spec: a fully fillable 2×2 grid's across and down slots
sharing their first cell, with word list AT / AS / TO. -/
def cwCross : Crossword :=
  ⟨[vAcross, vDown], [['A','T'], ['A','S'], ['T','O']],
   [((vAcross, vDown), (0, 0)), ((vDown, vAcross), (0, 0))]⟩

/-- An unsatisfiable instance whose first domain is wiped out by propagation:
the across slot's cell 0 crosses the down slot's cell 1, and the only word
AB cannot agree with itself there. -/
def cwWipe : Crossword :=
  ⟨[vAcross, vDown], [['A','B']], [((vAcross, vDown), (0, 1)), ((vDown, vAcross), (1, 0))]⟩

/-- A domain store for the value-ordering counterexample: the across slot
holds ZA before AA, the down slot holds AA and AB; ZA eliminates both of
the neighbor's values, AA eliminates none. -/
def dsSkew : Domains :=
  fun v => if v = vAcross then [['Z','A'], ['A','A']] else [['A','A'], ['A','B']]

/-- A one-slot instance with an empty word list, so that the very first
search step fails. -/
def cwNoWords : Crossword := ⟨[vAcross], [], []⟩

end ConcreteInstances

/-- Claim C1 — soundness of `solve`: for every crossword graph and word list,
an assignment returned by `solve()` (rather than the failure value `None`)
is complete (`assignment_complete`) and consistent (`consistent`: pairwise
distinct words, lengths matching, overlap agreement). -/
theorem claim_C1 (cw : Crossword) (a : Assignment) (h : solve cw = some a) :
    consistent cw a = true ∧ assignmentComplete cw a = true := by
  unfold solve at h
  simp only at h
  have hpair :
      backtrack cw (cw.vars.length + 1)
        (ac3 cw (enforceNodeConsistency cw (initialDomains cw)) none).2 [] =
      (some a,
        (backtrack cw (cw.vars.length + 1)
          (ac3 cw (enforceNodeConsistency cw (initialDomains cw)) none).2 []).2) := by
    rw [← h]
  exact backtrack_sound cw _ _ _ _ _ hpair

/-- Witness for claim C1: on the Scenario-D instance `cwCross`, `solve`
returns the assignment ACROSS = AT, DOWN = AS, and the claim instantiates
to its completeness and consistency. -/
theorem claim_C1_witness :
    consistent cwCross [(vAcross, ['A','T']), (vDown, ['A','S'])] = true ∧
    assignmentComplete cwCross [(vAcross, ['A','T']), (vDown, ['A','S'])] = true :=
  claim_C1 cwCross [(vAcross, ['A','T']), (vDown, ['A','S'])] (by decide)

/-- Claim C3, counterexample: on `cwWipe`, AC-3 run by `solve` reports failure
(a wiped-out domain), yet the backtracking search is invoked — the number
of `backtrack` calls `solve` performs is 1, not 0: `solve` ignores `ac3`'s
Boolean result and calls `backtrack` unconditionally (it still returns
`None`, because the search fails at once on the emptied domain). -/
theorem claim_C3_counterexample :
    (ac3 cwWipe (enforceNodeConsistency cwWipe (initialDomains cwWipe)) none).1 = false ∧
    solveBacktrackCalls cwWipe = 1 ∧ solve cwWipe = none := by
  refine ⟨by decide, by decide, by decide⟩

/-- Claim C3 as amended: when AC-3 over all arcs reports failure, `solve()`
still returns the no-solution value `None` — but it does invoke the
backtracking search (which immediately fails on the emptied domain),
because the source ignores `ac3`'s return value. -/
theorem claim_C3 (cw : Crossword)
    (h : (ac3 cw (enforceNodeConsistency cw (initialDomains cw)) none).1 = false) :
    solve cw = none :=
  solve_none_of_ac3_false cw h

/-- Witness for claim C3: on `cwWipe`, AC-3 fails and the amended claim yields
`solve cwWipe = none`. -/
theorem claim_C3_witness : solve cwWipe = none :=
  claim_C3 cwWipe (by decide)

/-- Claim C6 — value-ordering permutation invariant: the collection
`order_domain_values(var, assignment)` returns contains exactly the words
of `var`'s current domain, for every variable and assignment. -/
theorem claim_C6 (cw : Crossword) (ds : Domains) (var : Variable) (a : Assignment)
    (w : Word) : w ∈ (orderDomainValues cw ds var a).1 ↔ w ∈ ds var :=
  orderDomainValues_fst_mem cw ds var a w

/-- Claim C7 — heuristic evaluation does not permanently mutate domains: after
`order_domain_values(var, assignment)` returns, every variable's domain in
the store equals its value before the call. -/
theorem claim_C7 (cw : Crossword) (ds : Domains) (var : Variable) (a : Assignment)
    (v : Variable) : (orderDomainValues cw ds var a).2 v = ds v := by
  rw [orderDomainValues_snd]

/-- Claim C8 — backtrack failure atomicity: whenever `backtrack(a)` returns
the failure value `None`, the assignment holds exactly the entries it held
before the call — every tentative entry has been removed. -/
theorem claim_C8 (cw : Crossword) (fuel : Nat) (ds : Domains) (a : Assignment)
    (h : (backtrack cw fuel ds a).1 = none) : (backtrack cw fuel ds a).2 = a :=
  backtrack_restore cw fuel ds a h

/-- Witness for claim C8: on the no-words instance, `backtrack` starting from
the empty assignment fails and leaves the assignment empty. -/
theorem claim_C8_witness : (backtrack cwNoWords 2 (initialDomains cwNoWords) []).2 = [] :=
  claim_C8 cwNoWords 2 (initialDomains cwNoWords) [] (by decide)

/-- Claim C9 — monotone domain shrinkage: `enforce_node_consistency`,
`revise`, and `ac3` only ever remove words from domains; for every
variable, the domain after each call is a subset of the domain before. -/
theorem claim_C9 (cw : Crossword) (ds : Domains) :
    (∀ v w, w ∈ enforceNodeConsistency cw ds v → w ∈ ds v) ∧
    (∀ x y v w, w ∈ (revise cw ds x y).2 v → w ∈ ds v) ∧
    (∀ arcs v w, w ∈ (ac3 cw ds arcs).2 v → w ∈ ds v) := by
  refine ⟨fun v w h => enforceNodeConsistency_subset cw ds v w h,
    fun x y v w h => revise_subset cw ds x y v w h, fun arcs v w h => ?_⟩
  unfold ac3 at h
  exact ac3Loop_subset cw _ _ ds v w h

/-- Claim C5, defect exhibited: on the instance `cwCross` with store `dsSkew`
and the empty assignment, `order_domain_values(vAcross, {})` returns the
raw stored domain ZA, AA — yet ZA would eliminate 2 values from the
unassigned neighbor's domain and AA would eliminate 0, so the documented
ascending least-constraining-value order requires AA first.  The computed
ordering is discarded (generate.py line 241 overwrites the sorted list with
a copy of the raw domain) and the returned order does not depend on the
elimination counts. -/
theorem claim_C5 :
    (orderDomainValues cwCross dsSkew vAcross []).1 = [['Z','A'], ['A','A']] ∧
    specElimCount cwCross dsSkew [] vAcross ['Z','A'] = 2 ∧
    specElimCount cwCross dsSkew [] vAcross ['A','A'] = 0 :=
  ⟨by decide, by decide, by decide⟩

section ConsistentCheckedLemmas

theorem allOptB_eq_all {α : Type} (f : α → Option Bool) (g : α → Bool) :
    ∀ l : List α, (∀ x ∈ l, f x = some (g x)) → allOptB f l = some (l.all g) := by
  intro l
  induction l with
  | nil => intro _; rfl
  | cons x xs ih =>
    intro hf
    unfold allOptB
    rw [hf x (List.mem_cons_self x xs)]
    cases hgx : g x
    · simp [List.all_cons, hgx]
    · rw [List.all_cons, hgx, Bool.true_and]
      exact ih (fun y hy => hf y (List.mem_cons_of_mem _ hy))

theorem overlaps_mem_table {cw : Crossword} {x y : Variable} {o : Nat × Nat}
    (h : cw.overlaps x y = some o) : ((x, y), o) ∈ cw.overlapTable := by
  unfold Crossword.overlaps at h
  cases hf : cw.overlapTable.find? (fun e => decide (e.1 = (x, y))) with
  | none => rw [hf] at h; simp at h
  | some e =>
    rw [hf] at h
    have hp := List.find?_some hf
    have hm := List.mem_of_find?_eq_some hf
    simp only [decide_eq_true_eq] at hp
    have h2 : e.2 = o := by simpa using h
    rcases e with ⟨e1, e2⟩
    simp only at hp h2
    rw [hp, h2] at hm
    exact hm

end ConsistentCheckedLemmas

/-- Claim C10 — implicit safety of `consistent`: under the graph invariant
that every recorded overlap index pair lies within the two variables'
lengths, the neighbor-agreement check of `consistent` never reads a word
out of range: the fallible embedding `consistentChecked` (where an
out-of-range read yields `none`) always returns `some` of what `consistent`
returns.  In particular an entry whose word length differs from its
variable's length makes both return `False` before any overlap-indexed
letter is read. -/
theorem claim_C10 (cw : Crossword) (a : Assignment)
    (hb : overlapBoundsCheck cw = true) :
    consistentChecked cw a = some (consistent cw a) := by
  unfold consistentChecked consistent
  by_cases hD : decide ((a.map (fun p => p.2)).dedup.length = (a.map (fun p => p.2)).length)
  · by_cases hL : a.all (fun p => decide (p.2.length = p.1.length))
    · rw [hD, hL]
      simp only [Bool.not_true, Bool.false_eq_true, if_false, Bool.true_and]
      apply allOptB_eq_all
      intro p hp
      apply allOptB_eq_all
      intro j hj
      cases hlk : lookupA a j with
      | none => rfl
      | some wj =>
        cases ho : cw.overlaps p.1 j with
        | none => rfl
        | some o =>
          have hent := overlaps_mem_table ho
          have hbo := List.all_eq_true.mp hb _ hent
          simp only [Bool.and_eq_true, decide_eq_true_eq] at hbo
          have hlenp : p.2.length = p.1.length := by
            have := List.all_eq_true.mp hL p hp
            simpa using this
          have hlenj : wj.length = j.length := by
            have := List.all_eq_true.mp hL _ (mem_of_lookupA hlk)
            simpa using this
          have hip : o.1 < p.2.length := by rw [hlenp]; exact hbo.1
          have hij : o.2 < wj.length := by rw [hlenj]; exact hbo.2
          show (match p.2[o.1]?, wj[o.2]? with
            | some c1, some c2 => some (decide (c1 = c2))
            | _, _ => none) =
            some (decide (p.2.getD o.1 ' ' = wj.getD o.2 ' '))
          rw [List.getElem?_eq_getElem hip, List.getElem?_eq_getElem hij]
          show some (decide (p.2[o.1] = wj[o.2])) =
            some (decide (p.2.getD o.1 ' ' = wj.getD o.2 ' '))
          rw [List.getD_eq_getElem?_getD, List.getD_eq_getElem?_getD,
            List.getElem?_eq_getElem hip, List.getElem?_eq_getElem hij]
          rfl
    · rw [hD]
      simp only [Bool.not_true, Bool.false_eq_true, if_false]
      rw [Bool.not_eq_true] at hL
      rw [hL]
      simp
  · rw [Bool.not_eq_true] at hD
    rw [hD]
    simp

/-- Witness for claim C10: on `cwCross` (whose overlap table satisfies the
bounds invariant) and an assignment holding a word of the wrong length, the
checked evaluation returns `some false` — the length check fires before any
letter is read. -/
theorem claim_C10_witness :
    consistentChecked cwCross [(vAcross, ['A','T','Q'])] =
      some (consistent cwCross [(vAcross, ['A','T','Q'])]) :=
  claim_C10 cwCross [(vAcross, ['A','T','Q'])] (by decide)

section ArcConsistency

/-- Arc consistency of `x` relative to `y` in a domain store: every word in
`x`'s domain has a supporting word in `y`'s domain agreeing at the recorded
overlap indices (vacuous when no overlap is recorded). -/
def arcConsistent (cw : Crossword) (ds : Domains) (x y : Variable) : Prop :=
  ∀ i j, cw.overlaps x y = some (i, j) →
    ∀ w ∈ ds x, ∃ w' ∈ ds y, w.getD i ' ' = w'.getD j ' '

theorem overlapSymmCheck_symm {cw : Crossword} (h : overlapSymmCheck cw = true) :
    OverlapSymm cw := by
  intro x y i j ho
  have hent := overlaps_mem_table ho
  have hc := List.all_eq_true.mp h _ hent
  simp only [Bool.and_eq_true, decide_eq_true_eq] at hc
  exact hc.2

theorem sum_map_le (f g : Variable → Nat) :
    ∀ l : List Variable, (∀ v ∈ l, g v ≤ f v) → (l.map g).sum ≤ (l.map f).sum := by
  intro l
  induction l with
  | nil => intro _; exact Nat.le_refl 0
  | cons u us ih =>
    intro hle
    simp only [List.map_cons, List.sum_cons]
    exact Nat.add_le_add (hle u (List.mem_cons_self _ _))
      (ih (fun v hv => hle v (List.mem_cons_of_mem _ hv)))

theorem sum_map_lt (f g : Variable → Nat) {x : Variable} :
    ∀ l : List Variable, (∀ v ∈ l, g v ≤ f v) → x ∈ l → g x < f x →
      (l.map g).sum < (l.map f).sum := by
  intro l
  induction l with
  | nil => intro _ hx; simp at hx
  | cons u us ih =>
    intro hle hx hlt
    simp only [List.map_cons, List.sum_cons]
    rcases List.mem_cons.mp hx with hx | hx
    · subst hx
      exact Nat.add_lt_add_of_lt_of_le hlt
        (sum_map_le f g us (fun v hv => hle v (List.mem_cons_of_mem _ hv)))
    · exact Nat.add_lt_add_of_le_of_lt (hle u (List.mem_cons_self _ _))
        (ih (fun v hv => hle v (List.mem_cons_of_mem _ hv)) hx hlt)

theorem revise_x_length_le (cw : Crossword) (ds : Domains) (x y : Variable) :
    ((revise cw ds x y).2 x).length ≤ (ds x).length := by
  unfold revise
  cases ho : cw.overlaps x y with
  | none => exact Nat.le_refl _
  | some o =>
    rcases o with ⟨i, j⟩
    simp only
    rw [Function.update_same]
    exact (List.filter_sublist _).length_le

theorem revise_length_le (cw : Crossword) (ds : Domains) (x y v : Variable) :
    ((revise cw ds x y).2 v).length ≤ (ds v).length := by
  by_cases hv : v = x
  · rw [hv]; exact revise_x_length_le cw ds x y
  · rw [revise_snd_ne cw ds x y v hv]

theorem revise_totalDomSize_le (cw : Crossword) (ds : Domains) (x y : Variable) :
    totalDomSize cw (revise cw ds x y).2 ≤ totalDomSize cw ds :=
  sum_map_le _ _ cw.vars (fun v _ => revise_length_le cw ds x y v)

theorem revise_true_totalDomSize_lt (cw : Crossword) (ds : Domains) {x y : Variable}
    (hx : x ∈ cw.vars) (h : (revise cw ds x y).1 = true) :
    totalDomSize cw (revise cw ds x y).2 < totalDomSize cw ds :=
  sum_map_lt _ _ cw.vars (fun v _ => revise_length_le cw ds x y v) hx
    (revise_true_lt cw ds x y h)

theorem revise_establishes_arc (cw : Crossword) (ds : Domains) {x y : Variable}
    (hxy : x ≠ y) : arcConsistent cw (revise cw ds x y).2 x y := by
  intro i j ho w hw
  have hsup := revise_mem_x_support cw ds x y ho hw
  rw [← revise_snd_ne cw ds x y y (Ne.symm hxy)] at hsup
  exact hsup

theorem revise_preserves_arc_other (cw : Crossword) (ds : Domains) (x y : Variable)
    {u v : Variable} (hvx : v ≠ x) (h : arcConsistent cw ds u v) :
    arcConsistent cw (revise cw ds x y).2 u v := by
  intro i j ho w hw
  have hw' := revise_subset cw ds x y u w hw
  rcases h i j ho w hw' with ⟨w', hw'mem, hagree⟩
  rw [revise_snd_ne cw ds x y v hvx]
  exact ⟨w', hw'mem, hagree⟩

theorem revise_preserves_arc_target (cw : Crossword) (hsymm : OverlapSymm cw)
    (ds : Domains) {x y : Variable} (hxy : x ≠ y)
    (h : arcConsistent cw ds y x) : arcConsistent cw (revise cw ds x y).2 y x := by
  intro j i ho wy hwy
  rw [revise_snd_ne cw ds x y y (Ne.symm hxy)] at hwy
  rcases h j i ho wy hwy with ⟨wx, hwxmem, hagree⟩
  have hoxy : cw.overlaps x y = some (i, j) := hsymm y x j i ho
  refine ⟨wx, ?_, hagree⟩
  exact revise_mem_of_support cw ds x y hoxy hwxmem ⟨wy, hwy, hagree.symm⟩

theorem revise_false_arc (cw : Crossword) (ds : Domains) (x y : Variable)
    (h : (revise cw ds x y).1 = false) : arcConsistent cw ds x y := by
  intro i j ho w hw
  unfold revise at h
  rw [ho] at h
  simp only at h
  have hany : ((ds y).any (fun wy => decide (w.getD i ' ' = wy.getD j ' '))) = true := by
    cases hA : (ds y).any (fun wy => decide (w.getD i ' ' = wy.getD j ' '))
    · exfalso
      have hmem : w ∈ (ds x).filter
          (fun wx => !((ds y).any (fun wy => decide (wx.getD i ' ' = wy.getD j ' ')))) :=
        List.mem_filter.mpr ⟨hw, by rw [hA]; rfl⟩
      have hemp : (ds x).filter
          (fun wx => !((ds y).any (fun wy => decide (wx.getD i ' ' = wy.getD j ' ')))) = [] := by
        rw [← List.isEmpty_iff]
        cases hE : ((ds x).filter
            (fun wx => !((ds y).any (fun wy => decide (wx.getD i ' ' = wy.getD j ' '))))).isEmpty
        · rw [hE] at h; simp at h
        · rfl
      rw [hemp] at hmem
      exact (List.not_mem_nil w) hmem
    · rfl
  rcases List.any_eq_true.mp hany with ⟨wy, hwy, hag⟩
  exact ⟨wy, hwy, by simpa using hag⟩

end ArcConsistency

theorem ac3Loop_arc_consistent (cw : Crossword) (hsymm : OverlapSymm cw) :
    ∀ (fuel : Nat) (queue : List (Variable × Variable)) (ds : Domains),
      ac3Bound cw queue ds < fuel →
      (∀ p ∈ queue, p.1 ∈ cw.vars ∧ p.2 ∈ cw.neighbors p.1) →
      (∀ x ∈ cw.vars, ∀ y ∈ cw.neighbors x, (x, y) ∈ queue ∨ arcConsistent cw ds x y) →
      ∀ ds', ac3Loop cw fuel queue ds = (true, ds') →
      ∀ x ∈ cw.vars, ∀ y ∈ cw.neighbors x, arcConsistent cw ds' x y := by
  intro fuel
  induction fuel with
  | zero => intro queue ds hb; exact absurd hb (Nat.not_lt_zero _)
  | succ n ih =>
    intro queue ds hb hwf hinv ds' hrun x hx y hy
    cases queue with
    | nil =>
      unfold ac3Loop at hrun
      simp at hrun
      rcases hinv x hx y hy with hq | hok
      · simp at hq
      · rw [← hrun]; exact hok
    | cons p rest =>
      rcases p with ⟨u, v⟩
      have hu : u ∈ cw.vars := (hwf (u, v) (List.mem_cons_self _ _)).1
      have hvn : v ∈ cw.neighbors u := (hwf (u, v) (List.mem_cons_self _ _)).2
      have hvu : v ≠ u := (neighbors_mem hvn).2.1
      unfold ac3Loop at hrun
      simp only at hrun
      by_cases hrev : (revise cw ds u v).1
      · rw [if_pos hrev] at hrun
        by_cases hlen : ((revise cw ds u v).2 u).length = 0
        · rw [if_pos hlen] at hrun; simp at hrun
        · rw [if_neg hlen] at hrun
          refine ih _ (revise cw ds u v).2 ?_ ?_ ?_ ds' hrun x hx y hy
          · have h1 : totalDomSize cw (revise cw ds u v).2 + 1 ≤ totalDomSize cw ds :=
              revise_true_totalDomSize_lt cw ds hu hrev
            have h2 : (((cw.neighbors u).filter (fun n => decide (n ≠ v))).map
                (fun n => (n, u))).length ≤ cw.vars.length := by
              rw [List.length_map]
              exact ((List.filter_sublist _).length_le).trans (List.filter_sublist _).length_le
            have hmul : (totalDomSize cw (revise cw ds u v).2 + 1) * (cw.vars.length + 1) ≤
                totalDomSize cw ds * (cw.vars.length + 1) :=
              Nat.mul_le_mul_right _ h1
            have hexp : (totalDomSize cw (revise cw ds u v).2 + 1) * (cw.vars.length + 1) =
                totalDomSize cw (revise cw ds u v).2 * (cw.vars.length + 1) +
                  (cw.vars.length + 1) := by ring
            unfold ac3Bound at hb ⊢
            rw [List.length_append]
            simp only [List.length_cons] at hb
            omega
          · intro p hp
            rcases List.mem_append.mp hp with hp | hp
            · exact hwf p (List.mem_cons_of_mem _ hp)
            · rcases List.mem_map.mp hp with ⟨nb, hnb, hpe⟩
              have hnbf := List.mem_filter.mp hnb
              have hnbm := neighbors_mem hnbf.1
              rcases Option.isSome_iff_exists.mp hnbm.2.2 with ⟨o, ho⟩
              have hsym := hsymm nb u o.1 o.2 (by rw [← ho])
              rw [← hpe]
              refine ⟨hnbm.1, mem_neighbors hu (Ne.symm hnbm.2.1) ?_⟩
              rw [hsym]
              rfl
          · intro x2 hx2 y2 hy2
            rcases hinv x2 hx2 y2 hy2 with hq | hok
            · rcases List.mem_cons.mp hq with heq | hrest
              · rw [Prod.mk.injEq] at heq
                right
                rw [heq.1, heq.2]
                exact revise_establishes_arc cw ds (Ne.symm hvu)
              · left; exact List.mem_append_left _ hrest
            · by_cases hy2u : y2 = u
              · by_cases hx2v : x2 = v
                · right
                  rw [hx2v, hy2u]
                  rw [hx2v, hy2u] at hok
                  exact revise_preserves_arc_target cw hsymm ds (Ne.symm hvu) hok
                · left
                  apply List.mem_append_right
                  apply List.mem_map.mpr
                  refine ⟨x2, ?_, by rw [hy2u]⟩
                  apply List.mem_filter.mpr
                  have hy2n : u ∈ cw.neighbors x2 := hy2u ▸ hy2
                  have hm := neighbors_mem hy2n
                  rcases Option.isSome_iff_exists.mp hm.2.2 with ⟨o, ho⟩
                  have hsym := hsymm u x2 o.1 o.2 (by rw [← ho])
                  refine ⟨mem_neighbors hx2 (Ne.symm hm.2.1) (by rw [hsym]; rfl), ?_⟩
                  simp [hx2v]
              · right
                exact revise_preserves_arc_other cw ds u v hy2u hok
      · rw [if_neg hrev] at hrun
        refine ih rest ds ?_ (fun p hp => hwf p (List.mem_cons_of_mem _ hp)) ?_ ds' hrun x hx y hy
        · unfold ac3Bound at hb ⊢
          simp only [List.length_cons] at hb
          omega
        · intro x2 hx2 y2 hy2
          rcases hinv x2 hx2 y2 hy2 with hq | hok
          · rcases List.mem_cons.mp hq with heq | hrest
            · rw [Prod.mk.injEq] at heq
              right
              rw [heq.1, heq.2]
              exact revise_false_arc cw ds u v (by simpa using hrev)
            · left; exact hrest
          · right; exact hok

theorem allArcs_wf {cw : Crossword} {p : Variable × Variable} (h : p ∈ allArcs cw) :
    p.1 ∈ cw.vars ∧ p.2 ∈ cw.neighbors p.1 := by
  rcases List.mem_flatMap.mp h with ⟨x, hx, hp⟩
  rcases List.mem_map.mp hp with ⟨y, hy, hpe⟩
  rw [← hpe]
  exact ⟨hx, hy⟩

theorem mem_allArcs {cw : Crossword} {x y : Variable} (hx : x ∈ cw.vars)
    (hy : y ∈ cw.neighbors x) : (x, y) ∈ allArcs cw :=
  List.mem_flatMap.mpr ⟨x, hx, List.mem_map.mpr ⟨y, hy, rfl⟩⟩

/-- Claim C4 — arc-consistency postcondition: under the spec's symmetric
overlap-table invariant, if `ac3` called with `arcs = None` returns
success, then for every neighbor pair `(x, y)` with overlap indices
`(i, j)`, every word remaining in `x`'s domain has a word in `y`'s domain
agreeing at the overlap. -/
theorem claim_C4 (cw : Crossword) (ds : Domains) (hsymm : overlapSymmCheck cw = true)
    (h : (ac3 cw ds none).1 = true) :
    ∀ x ∈ cw.vars, ∀ y ∈ cw.neighbors x, ∀ i j, cw.overlaps x y = some (i, j) →
      ∀ w ∈ (ac3 cw ds none).2 x,
        ∃ w' ∈ (ac3 cw ds none).2 y, w.getD i ' ' = w'.getD j ' ' := by
  intro x hx y hy i j ho w hw
  have hpair : ac3 cw ds none = (true, (ac3 cw ds none).2) := by rw [← h]
  have hloop : ac3Loop cw (ac3Bound cw (allArcs cw) ds + 1) (allArcs cw) ds =
      (true, (ac3 cw ds none).2) := hpair
  have harc := ac3Loop_arc_consistent cw (overlapSymmCheck_symm hsymm) _ (allArcs cw) ds
    (Nat.lt_succ_self _) (fun p hp => allArcs_wf hp)
    (fun x2 hx2 y2 hy2 => Or.inl (mem_allArcs hx2 hy2)) _ hloop x hx y hy
  exact harc i j ho w hw

/-- Witness for claim C4: on the Scenario-D instance with every domain the
full word list, `ac3` succeeds, and the postcondition instantiates at the
across/down pair and the word AT: some word in the down slot's final
domain starts with the letter A. -/
theorem claim_C4_witness :
    ∃ w' ∈ (ac3 cwCross (initialDomains cwCross) none).2 vDown,
      (['A','T'] : Word).getD 0 ' ' = w'.getD 0 ' ' :=
  claim_C4 cwCross (initialDomains cwCross) (by decide) (by decide) vAcross (by decide)
    vDown (by decide) 0 0 (by decide) ['A','T'] (by decide)

section CompletenessLemmas

theorem lookupA_of_mem_nodup {a : Assignment}
    (hnodup : (a.map (fun p => p.1)).Nodup) {v : Variable} {w : Word}
    (h : (v, w) ∈ a) : lookupA a v = some w := by
  induction a with
  | nil => simp at h
  | cons p rest ih =>
    rcases List.mem_cons.mp h with h | h
    · rw [← h]
      simp [lookupA, List.find?]
    · rw [List.map_cons] at hnodup
      have hnd := List.nodup_cons.mp hnodup
      have hkey : ¬(p.1 = v) := by
        intro he
        exact hnd.1 (he ▸ List.mem_map.mpr ⟨(v, w), h, rfl⟩)
      unfold lookupA
      rw [List.find?_cons_of_neg _ (by simpa using hkey)]
      exact ih hnd.2 h

theorem lookupA_isSome_of_complete {cw : Crossword} {a : Assignment}
    (h : assignmentComplete cw a = true) {v : Variable} (hv : v ∈ cw.vars) :
    ∃ w, lookupA a v = some w := by
  unfold assignmentComplete at h
  cases hl : lookupA a v with
  | some w => exact ⟨w, rfl⟩
  | none =>
    exfalso
    have hmem : v ∈ cw.vars.filter (fun v => (lookupA a v).isNone) :=
      List.mem_filter.mpr ⟨hv, by simp [hl]⟩
    rw [List.isEmpty_iff] at h
    rw [h] at hmem
    simp at hmem

theorem nodup_of_dedup_length {l : List Word}
    (h : l.dedup.length = l.length) : l.Nodup := by
  have hs : l.dedup.Sublist l := List.dedup_sublist l
  have he : l.dedup = l := hs.eq_of_length h
  rw [← he]
  exact List.nodup_dedup l

theorem consistent_parts {cw : Crossword} {a : Assignment} (h : consistent cw a = true) :
    (a.map (fun p => p.2)).Nodup ∧
    (∀ p ∈ a, p.2.length = p.1.length) ∧
    (∀ p ∈ a, ∀ j ∈ cw.neighbors p.1,
      (match lookupA a j with
        | none => true
        | some wj =>
          match cw.overlaps p.1 j with
          | some o => decide (p.2.getD o.1 ' ' = wj.getD o.2 ' ')
          | none => true) = true) := by
  unfold consistent at h
  simp only [Bool.and_eq_true, decide_eq_true_eq, List.all_eq_true] at h
  refine ⟨nodup_of_dedup_length h.1.1, fun p hp => by simpa using h.1.2 p hp,
    fun p hp j hj => h.2 p hp j hj⟩

theorem sol_values_distinct {cw : Crossword} {sol : Assignment}
    (hC : consistent cw sol = true)
    {x y : Variable} {wx wy : Word} (hx : (x, wx) ∈ sol) (hy : (y, wy) ∈ sol)
    (hne : x ≠ y) : wx ≠ wy := by
  intro he
  have hvals := (consistent_parts hC).1
  have := List.inj_on_of_nodup_map hvals hx hy (by simpa using he)
  rw [Prod.mk.injEq] at this
  exact hne this.1

theorem sol_agrees {cw : Crossword} (hsymm : OverlapSymm cw) {sol : Assignment}
    (hC : consistent cw sol = true) :
    ∀ x y i j, x ∈ cw.vars → y ∈ cw.vars → x ≠ y → cw.overlaps x y = some (i, j) →
      ∀ wx wy, lookupA sol x = some wx → lookupA sol y = some wy →
        wx.getD i ' ' = wy.getD j ' ' := by
  intro x y i j hx hy hne ho wx wy hlx hly
  have hyn : y ∈ cw.neighbors x := by
    refine mem_neighbors hy (Ne.symm hne) ?_
    rw [hsymm x y i j ho]
    rfl
  have hcl := (consistent_parts hC).2.2 (x, wx) (mem_of_lookupA hlx) y hyn
  rw [hly] at hcl
  simp only at hcl
  rw [ho] at hcl
  simpa using hcl

end CompletenessLemmas

theorem consistent_of_sub (cw : Crossword) {sol a : Assignment}
    (hC : consistent cw sol = true)
    (hagree : ∀ x y i j, x ∈ cw.vars → y ∈ cw.vars → x ≠ y →
      cw.overlaps x y = some (i, j) → ∀ wx wy, lookupA sol x = some wx →
        lookupA sol y = some wy → wx.getD i ' ' = wy.getD j ' ')
    (hsub : ∀ v w, lookupA a v = some w → v ∈ cw.vars ∧ lookupA sol v = some w)
    (hkeys : (a.map (fun p => p.1)).Nodup) :
    consistent cw a = true := by
  have hmemlk : ∀ p ∈ a, lookupA a p.1 = some p.2 := by
    intro p hp
    exact lookupA_of_mem_nodup hkeys hp
  have hvnd : (a.map (fun p => p.2)).Nodup := by
    have hand : a.Nodup := List.Nodup.of_map _ hkeys
    refine List.Nodup.map_on ?_ hand
    intro p hp q hq hpq
    have hsp := hsub p.1 p.2 (hmemlk p hp)
    have hsq := hsub q.1 q.2 (hmemlk q hq)
    by_cases hk : p.1 = q.1
    · exact List.inj_on_of_nodup_map hkeys hp hq hk
    · exact absurd hpq (sol_values_distinct hC (mem_of_lookupA hsp.2)
        (mem_of_lookupA hsq.2) hk)
  unfold consistent
  simp only [Bool.and_eq_true]
  refine ⟨⟨?_, ?_⟩, ?_⟩
  · simp [List.dedup_eq_self.mpr hvnd]
  · rw [List.all_eq_true]
    intro p hp
    have hsp := hsub p.1 p.2 (hmemlk p hp)
    have hlen := (consistent_parts hC).2.1 (p.1, p.2) (mem_of_lookupA hsp.2)
    simpa using hlen
  · rw [List.all_eq_true]
    intro p hp
    rw [List.all_eq_true]
    intro j hj
    cases hlj : lookupA a j with
    | none => rfl
    | some wj =>
      cases ho : cw.overlaps p.1 j with
      | none => rfl
      | some o =>
        have hsp := hsub p.1 p.2 (hmemlk p hp)
        have hsj := hsub j wj hlj
        have hne : p.1 ≠ j := Ne.symm (neighbors_mem hj).2.1
        have := hagree p.1 j o.1 o.2 hsp.1 hsj.1 hne (by rw [ho]) p.2 wj hsp.2 hsj.2
        simpa using this

theorem tryValues_ne_none {f : Assignment → Option Assignment × Assignment}
    (hfr : ∀ a', (f a').1 = none → (f a').2 = a') {var : Variable} :
    ∀ (vals : List Word) (a : Assignment), lookupA a var = none →
      (∃ v ∈ vals, (f (insertA a var v)).1 ≠ none) →
      (tryValues f var vals a).1 ≠ none := by
  intro vals
  induction vals with
  | nil =>
    intro a _ hex
    rcases hex with ⟨v, hv, _⟩
    simp at hv
  | cons v rest ih =>
    intro a hvar hex
    unfold tryValues
    cases hfa : f (insertA a var v) with
    | mk o a2 =>
      cases o with
      | some r => simp
      | none =>
        have ha2 : a2 = insertA a var v := by
          have := hfr (insertA a var v) (by rw [hfa])
          rw [hfa] at this
          exact this
        have herase : eraseA a2 var = a := by
          rw [ha2]
          exact eraseA_insertA v hvar
        simp only [herase]
        refine ih a hvar ?_
        rcases hex with ⟨u, hu, hune⟩
        rcases List.mem_cons.mp hu with hu | hu
        · exfalso
          rw [hu, hfa] at hune
          exact hune rfl
        · exact ⟨u, hu, hune⟩

theorem filter_unassigned_insert {a : Assignment} {var : Variable} (w : Word)
    (hun : lookupA a var = none) :
    ∀ l : List Variable, l.Nodup → var ∈ l →
      (l.filter (fun v => (lookupA (insertA a var w) v).isNone)).length + 1 =
        (l.filter (fun v => (lookupA a v).isNone)).length := by
  intro l
  induction l with
  | nil => intro _ hm; simp at hm
  | cons u us ih =>
    intro hnd hm
    have hnd' := List.nodup_cons.mp hnd
    rcases List.mem_cons.mp hm with hm | hm
    · have hfu : (lookupA (insertA a var w) u).isNone = false := by
        rw [← hm, lookupA_insertA_self w hun]
        rfl
      have htu : (lookupA a u).isNone = true := by
        rw [← hm, hun]
        rfl
      have hcong : us.filter (fun v => (lookupA (insertA a var w) v).isNone) =
          us.filter (fun v => (lookupA a v).isNone) := by
        apply List.filter_congr
        intro v hv
        have hne : v ≠ var := by
          intro he
          apply hnd'.1
          rw [← hm, ← he]
          exact hv
        rw [lookupA_insertA_ne w hun hne]
      rw [List.filter_cons, List.filter_cons, hfu, htu]
      have hff : ¬(false = true) := by simp
      rw [if_neg hff, if_pos rfl, hcong]
      simp
    · have heq : (lookupA (insertA a var w) u).isNone = (lookupA a u).isNone := by
        have hne : u ≠ var := by
          intro he
          exact hnd'.1 (he ▸ hm)
        rw [lookupA_insertA_ne w hun hne]
      have hrec := ih hnd'.2 hm
      rw [List.filter_cons, List.filter_cons, heq]
      cases hlu : (lookupA a u).isNone
      · have hff : ¬(false = true) := by simp
        rw [if_neg hff, if_neg hff]
        exact hrec
      · rw [if_pos rfl, if_pos rfl]
        simp only [List.length_cons]
        omega

theorem backtrack_ne_none_of_sol (cw : Crossword) (hnodup : cw.vars.Nodup)
    {sol : Assignment} (hC : consistent cw sol = true)
    (hComp : assignmentComplete cw sol = true)
    (hagree : ∀ x y i j, x ∈ cw.vars → y ∈ cw.vars → x ≠ y →
      cw.overlaps x y = some (i, j) → ∀ wx wy, lookupA sol x = some wx →
        lookupA sol y = some wy → wx.getD i ' ' = wy.getD j ' ')
    (ds : Domains)
    (hdom : ∀ v ∈ cw.vars, ∀ w, lookupA sol v = some w → w ∈ ds v) :
    ∀ (fuel : Nat) (a : Assignment),
      (∀ v w, lookupA a v = some w → v ∈ cw.vars ∧ lookupA sol v = some w) →
      (a.map (fun p => p.1)).Nodup →
      (cw.vars.filter (fun v => (lookupA a v).isNone)).length < fuel →
      (backtrack cw fuel ds a).1 ≠ none := by
  intro fuel
  induction fuel with
  | zero => intro a _ _ hlt; exact absurd hlt (Nat.not_lt_zero _)
  | succ n ih =>
    intro a hsub hkeys hlt
    have hconsA : consistent cw a = true := consistent_of_sub cw hC hagree hsub hkeys
    have hff : ¬(false = true) := by simp
    unfold backtrack
    rw [hconsA]
    simp only [Bool.not_true]
    rw [if_neg hff]
    cases hcomp : assignmentComplete cw a
    · rw [if_neg hff]
      rcases @selectUnassignedVariable_isSome cw ds a hcomp with ⟨var, hsel⟩
      rw [hsel]
      simp only
      rw [orderDomainValues_snd]
      have hvmem := selectUnassignedVariable_mem hsel
      obtain ⟨wsol, hwsol⟩ := lookupA_isSome_of_complete hComp hvmem.1
      apply tryValues_ne_none (fun a' => backtrack_restore cw n ds a') _ a hvmem.2
      refine ⟨wsol, ?_, ?_⟩
      · rw [orderDomainValues_fst_mem]
        exact hdom var hvmem.1 wsol hwsol
      · apply ih
        · intro v w hl
          by_cases hv : v = var
          · rw [hv] at hl ⊢
            rw [lookupA_insertA_self wsol hvmem.2] at hl
            have hw : w = wsol := by simpa using hl.symm
            rw [hw]
            exact ⟨hvmem.1, hwsol⟩
          · rw [lookupA_insertA_ne wsol hvmem.2 hv] at hl
            exact hsub v w hl
        · rw [insertA_of_not_mem wsol hvmem.2, List.map_append]
          simp only [List.map_cons, List.map_nil]
          rw [List.nodup_append]
          refine ⟨hkeys, List.nodup_singleton _, ?_⟩
          intro k hk
          simp only [List.mem_singleton]
          intro he
          rcases List.mem_map.mp hk with ⟨p, hp, hpe⟩
          have := lookupA_eq_none_iff.mp hvmem.2 p hp
          rw [hpe] at this
          exact this he
        · have hcount := filter_unassigned_insert wsol hvmem.2 cw.vars hnodup hvmem.1
          omega
    · rw [if_pos rfl]
      simp

theorem revise_sol_mem (cw : Crossword) {sol : Assignment}
    (hagree : ∀ x y i j, x ∈ cw.vars → y ∈ cw.vars → x ≠ y →
      cw.overlaps x y = some (i, j) → ∀ wx wy, lookupA sol x = some wx →
        lookupA sol y = some wy → wx.getD i ' ' = wy.getD j ' ')
    (hComp : assignmentComplete cw sol = true) (ds : Domains) {x y : Variable}
    (hx : x ∈ cw.vars) (hy : y ∈ cw.vars) (hxy : x ≠ y)
    (hmem : ∀ v ∈ cw.vars, ∀ w, lookupA sol v = some w → w ∈ ds v) :
    ∀ v ∈ cw.vars, ∀ w, lookupA sol v = some w → w ∈ (revise cw ds x y).2 v := by
  intro v hv w hl
  by_cases hvx : v = x
  · rw [hvx]
    rw [hvx] at hl
    cases ho : cw.overlaps x y with
    | none =>
      unfold revise
      rw [ho]
      exact hmem x hx w hl
    | some o =>
      obtain ⟨wy, hwy⟩ := lookupA_isSome_of_complete hComp hy
      refine revise_mem_of_support cw ds x y (by rw [ho]) (hmem x hx w hl) ?_
      exact ⟨wy, hmem y hy wy hwy,
        hagree x y o.1 o.2 hx hy hxy (by rw [ho]) w wy hl hwy⟩
  · rw [revise_snd_ne cw ds x y v hvx]
    exact hmem v hv w hl

theorem ac3Loop_sol_mem (cw : Crossword) {sol : Assignment}
    (hagree : ∀ x y i j, x ∈ cw.vars → y ∈ cw.vars → x ≠ y →
      cw.overlaps x y = some (i, j) → ∀ wx wy, lookupA sol x = some wx →
        lookupA sol y = some wy → wx.getD i ' ' = wy.getD j ' ')
    (hComp : assignmentComplete cw sol = true) :
    ∀ (fuel : Nat) (queue : List (Variable × Variable)) (ds : Domains),
      (∀ p ∈ queue, p.1 ∈ cw.vars ∧ p.2 ∈ cw.vars ∧ p.1 ≠ p.2) →
      (∀ v ∈ cw.vars, ∀ w, lookupA sol v = some w → w ∈ ds v) →
      ∀ v ∈ cw.vars, ∀ w, lookupA sol v = some w → w ∈ (ac3Loop cw fuel queue ds).2 v := by
  intro fuel
  induction fuel with
  | zero => intro queue ds _ hmem v hv w hl; exact hmem v hv w hl
  | succ n ih =>
    intro queue ds hwf hmem v hv w hl
    unfold ac3Loop
    cases queue with
    | nil => exact hmem v hv w hl
    | cons p rest =>
      rcases p with ⟨u, m⟩
      have hup := hwf (u, m) (List.mem_cons_self _ _)
      have hrm := revise_sol_mem cw hagree hComp ds hup.1 hup.2.1 hup.2.2 hmem
      simp only
      by_cases hrev : (revise cw ds u m).1
      · rw [if_pos hrev]
        by_cases hlen : ((revise cw ds u m).2 u).length = 0
        · rw [if_pos hlen]
          exact hrm v hv w hl
        · rw [if_neg hlen]
          refine ih _ _ ?_ hrm v hv w hl
          intro q hq
          rcases List.mem_append.mp hq with hq | hq
          · exact hwf q (List.mem_cons_of_mem _ hq)
          · rcases List.mem_map.mp hq with ⟨nb, hnb, hqe⟩
            have hnbm := neighbors_mem (List.mem_filter.mp hnb).1
            rw [← hqe]
            exact ⟨hnbm.1, hup.1, hnbm.2.1⟩
      · rw [if_neg hrev]
        exact ih _ _ (fun q hq => hwf q (List.mem_cons_of_mem _ hq)) hmem v hv w hl

/-- Claim C2 — completeness of `solve`: under the spec's graph invariants
(the variable set has no duplicates; the overlap table is symmetric), if a
complete consistent assignment over the graph's variables exists within the
original pre-propagation domains (every value drawn from the full word
list), then `solve()` returns some complete consistent assignment rather
than the failure value. -/
theorem claim_C2 (cw : Crossword) (hnodup : cw.vars.Nodup)
    (hsymm : overlapSymmCheck cw = true) (sol : Assignment)
    (hin : ∀ p ∈ sol, p.1 ∈ cw.vars ∧ p.2 ∈ cw.words)
    (hC : consistent cw sol = true) (hComp : assignmentComplete cw sol = true) :
    ∃ a, solve cw = some a ∧ consistent cw a = true ∧
      assignmentComplete cw a = true := by
  have hagree := sol_agrees (overlapSymmCheck_symm hsymm) hC
  have hdom0 : ∀ v ∈ cw.vars, ∀ w, lookupA sol v = some w → w ∈ initialDomains cw v :=
    fun v _ w hl => (hin (v, w) (mem_of_lookupA hl)).2
  have hdom1 : ∀ v ∈ cw.vars, ∀ w, lookupA sol v = some w →
      w ∈ enforceNodeConsistency cw (initialDomains cw) v := by
    intro v hv w hl
    refine enforceNodeConsistency_mem cw _ v w (hdom0 v hv w hl) ?_
    exact (consistent_parts hC).2.1 (v, w) (mem_of_lookupA hl)
  have hdom2 : ∀ v ∈ cw.vars, ∀ w, lookupA sol v = some w →
      w ∈ (ac3 cw (enforceNodeConsistency cw (initialDomains cw)) none).2 v := by
    intro v hv w hl
    refine ac3Loop_sol_mem cw hagree hComp _ (allArcs cw) _ ?_ hdom1 v hv w hl
    intro q hq
    have hqw := allArcs_wf hq
    have hqm := neighbors_mem hqw.2
    exact ⟨hqw.1, hqm.1, Ne.symm hqm.2.1⟩
  have hne : (backtrack cw (cw.vars.length + 1)
      (ac3 cw (enforceNodeConsistency cw (initialDomains cw)) none).2 []).1 ≠ none := by
    refine backtrack_ne_none_of_sol cw hnodup hC hComp hagree _ hdom2 _ [] ?_ ?_ ?_
    · intro v w hl
      simp [lookupA, List.find?] at hl
    · simp
    · exact Nat.lt_succ_of_le (List.filter_sublist _).length_le
  cases hres : (backtrack cw (cw.vars.length + 1)
      (ac3 cw (enforceNodeConsistency cw (initialDomains cw)) none).2 []).1 with
  | none => exact absurd hres hne
  | some a =>
    have hsolve : solve cw = some a := hres
    have hpair : backtrack cw (cw.vars.length + 1)
        (ac3 cw (enforceNodeConsistency cw (initialDomains cw)) none).2 [] =
        (some a, (backtrack cw (cw.vars.length + 1)
          (ac3 cw (enforceNodeConsistency cw (initialDomains cw)) none).2 []).2) := by
      rw [← hres]
    have hsound := backtrack_sound cw _ _ _ _ _ hpair
    exact ⟨a, hsolve, hsound.1, hsound.2⟩

/-- Witness for claim C2: the Scenario-D instance has the complete consistent
assignment ACROSS = AT, DOWN = AS inside the full word-list domains, so the
claim yields that `solve` succeeds on it. -/
theorem claim_C2_witness :
    ∃ a, solve cwCross = some a ∧ consistent cwCross a = true ∧
      assignmentComplete cwCross a = true :=
  claim_C2 cwCross (by decide) (by decide) [(vAcross, ['A','T']), (vDown, ['A','S'])]
    (by decide) (by decide) (by decide)

section FuelIrrelevance

theorem ac3Bound_revised_lt (cw : Crossword) (ds : Domains) {u v : Variable}
    (hu : u ∈ cw.vars) (hrev : (revise cw ds u v).1 = true)
    (rest : List (Variable × Variable)) :
    ac3Bound cw
        (rest ++ ((cw.neighbors u).filter (fun n => decide (n ≠ v))).map (fun n => (n, u)))
        (revise cw ds u v).2 + 1 <
      ac3Bound cw ((u, v) :: rest) ds := by
  have h1 : totalDomSize cw (revise cw ds u v).2 + 1 ≤ totalDomSize cw ds :=
    revise_true_totalDomSize_lt cw ds hu hrev
  have h2 : (((cw.neighbors u).filter (fun n => decide (n ≠ v))).map
      (fun n => (n, u))).length ≤ cw.vars.length := by
    rw [List.length_map]
    exact ((List.filter_sublist _).length_le).trans (List.filter_sublist _).length_le
  have hmul : (totalDomSize cw (revise cw ds u v).2 + 1) * (cw.vars.length + 1) ≤
      totalDomSize cw ds * (cw.vars.length + 1) := Nat.mul_le_mul_right _ h1
  have hexp : (totalDomSize cw (revise cw ds u v).2 + 1) * (cw.vars.length + 1) =
      totalDomSize cw (revise cw ds u v).2 * (cw.vars.length + 1) +
        (cw.vars.length + 1) := by ring
  unfold ac3Bound
  rw [List.length_append]
  simp only [List.length_cons]
  omega

/-- The step budget of the `ac3` embedding is an artifact: any two budgets
exceeding `ac3Bound` produce identical results (the loop always terminates
by emptying its queue first). -/
theorem ac3Loop_fuel_eq (cw : Crossword) :
    ∀ (f1 f2 : Nat) (queue : List (Variable × Variable)) (ds : Domains),
      ac3Bound cw queue ds < f1 → ac3Bound cw queue ds < f2 →
      (∀ p ∈ queue, p.1 ∈ cw.vars) →
      ac3Loop cw f1 queue ds = ac3Loop cw f2 queue ds := by
  intro f1
  induction f1 with
  | zero => intro f2 queue ds h1; exact absurd h1 (Nat.not_lt_zero _)
  | succ n ih =>
    intro f2 queue ds h1 h2 hwf
    cases f2 with
    | zero => exact absurd h2 (Nat.not_lt_zero _)
    | succ m =>
      cases queue with
      | nil => rfl
      | cons p rest =>
        rcases p with ⟨u, v⟩
        have hu : u ∈ cw.vars := hwf (u, v) (List.mem_cons_self _ _)
        show (if (revise cw ds u v).1 then
            if ((revise cw ds u v).2 u).length = 0 then (false, (revise cw ds u v).2)
            else ac3Loop cw n
              (rest ++ ((cw.neighbors u).filter (fun q => decide (q ≠ v))).map (fun q => (q, u)))
              (revise cw ds u v).2
          else ac3Loop cw n rest ds) =
          (if (revise cw ds u v).1 then
            if ((revise cw ds u v).2 u).length = 0 then (false, (revise cw ds u v).2)
            else ac3Loop cw m
              (rest ++ ((cw.neighbors u).filter (fun q => decide (q ≠ v))).map (fun q => (q, u)))
              (revise cw ds u v).2
          else ac3Loop cw m rest ds)
        by_cases hrev : (revise cw ds u v).1
        · rw [if_pos hrev, if_pos hrev]
          by_cases hlen : ((revise cw ds u v).2 u).length = 0
          · rw [if_pos hlen, if_pos hlen]
          · rw [if_neg hlen, if_neg hlen]
            have hstep := ac3Bound_revised_lt cw ds hu hrev rest
            refine ih m _ _ (by omega) (by omega) ?_
            intro q hq
            rcases List.mem_append.mp hq with hq | hq
            · exact hwf q (List.mem_cons_of_mem _ hq)
            · rcases List.mem_map.mp hq with ⟨nb, hnb, hqe⟩
              have hnbm := neighbors_mem (List.mem_filter.mp hnb).1
              rw [← hqe]
              exact hnbm.1
        · rw [if_neg hrev, if_neg hrev]
          have hstep : ac3Bound cw rest ds < ac3Bound cw ((u, v) :: rest) ds := by
            unfold ac3Bound
            simp only [List.length_cons]
            omega
          exact ih m rest ds (by omega) (by omega)
            (fun q hq => hwf q (List.mem_cons_of_mem _ hq))

theorem tryValues_congr_of {f g : Assignment → Option Assignment × Assignment}
    (hfr : ∀ a', (f a').1 = none → (f a').2 = a') (var : Variable) :
    ∀ (vals : List Word) (a : Assignment), lookupA a var = none →
      (∀ v, f (insertA a var v) = g (insertA a var v)) →
      tryValues f var vals a = tryValues g var vals a := by
  intro vals
  induction vals with
  | nil => intro a _ _; rfl
  | cons v rest ih =>
    intro a hvar hfg
    unfold tryValues
    rw [← hfg v]
    cases hfa : f (insertA a var v) with
    | mk o a2 =>
      cases o with
      | some r => rfl
      | none =>
        have ha2 : a2 = insertA a var v := by
          have := hfr (insertA a var v) (by rw [hfa])
          rw [hfa] at this
          exact this
        have herase : eraseA a2 var = a := by
          rw [ha2]
          exact eraseA_insertA v hvar
        show tryValues f var rest (eraseA a2 var) = tryValues g var rest (eraseA a2 var)
        rw [herase]
        exact ih a hvar hfg

/-- The recursion budget of the `backtrack` embedding is an artifact: when the
variable set has no duplicates, any two budgets exceeding the number of
unassigned variables produce identical results (each recursive call
assigns one more variable, so the recursion depth is bounded by the
unassigned count). -/
theorem backtrack_fuel_eq (cw : Crossword) (hnodup : cw.vars.Nodup) (ds : Domains) :
    ∀ (f1 f2 : Nat) (a : Assignment),
      (cw.vars.filter (fun v => (lookupA a v).isNone)).length < f1 →
      (cw.vars.filter (fun v => (lookupA a v).isNone)).length < f2 →
      backtrack cw f1 ds a = backtrack cw f2 ds a := by
  intro f1
  induction f1 with
  | zero => intro f2 a h1; exact absurd h1 (Nat.not_lt_zero _)
  | succ n ih =>
    intro f2 a h1 h2
    cases f2 with
    | zero => exact absurd h2 (Nat.not_lt_zero _)
    | succ m =>
      show (if !(consistent cw a) then (none, a)
        else if assignmentComplete cw a then (some a, a)
        else match selectUnassignedVariable cw ds a with
          | none => (none, a)
          | some var =>
            let vd := orderDomainValues cw ds var a
            tryValues (backtrack cw n vd.2) var vd.1 a) =
        (if !(consistent cw a) then (none, a)
        else if assignmentComplete cw a then (some a, a)
        else match selectUnassignedVariable cw ds a with
          | none => (none, a)
          | some var =>
            let vd := orderDomainValues cw ds var a
            tryValues (backtrack cw m vd.2) var vd.1 a)
      by_cases hc : consistent cw a
      · rw [hc]
        by_cases hcomp : assignmentComplete cw a = true
        · rw [hcomp]
          simp
        · rw [Bool.not_eq_true] at hcomp
          rw [hcomp]
          simp only [Bool.not_true, Bool.false_eq_true, if_false]
          cases hsel : selectUnassignedVariable cw ds a with
          | none => rfl
          | some var =>
            simp only [orderDomainValues_snd]
            have hvmem := selectUnassignedVariable_mem hsel
            refine tryValues_congr_of (fun a' => backtrack_restore cw n ds a') var _ a
              hvmem.2 ?_
            intro v
            have hcount := filter_unassigned_insert v hvmem.2 cw.vars hnodup hvmem.1
            exact ih m (insertA a var v) (by omega) (by omega)
      · rw [Bool.not_eq_true] at hc
        rw [hc]
        rfl

end FuelIrrelevance
